import Mathlib

/-!
Verification development for the CS111 systems stack (ENCMAP encrypted
memory-mapped files and the V6 journaling filesystem).  Each C++ component
relevant to the checked properties is shallowly embedded as executable Lean
definitions: machine integers become `Nat` with explicit `% 2^32`
reductions where 32-bit wrap-around matters, byte buffers become
`List Nat`, and the stateful objects (`V6Log`, the buffer/inode caches,
`MCryptFile`, `V6Replay`, `Fsck`) become explicit state records with pure
transition functions mirroring the corresponding C++ member functions.
-/

/-- The LSN space is 32 bits: all sequence arithmetic is modulo `2^32`
(`lsn_t` is `uint32_t` in `logentry.hh`). -/
def lsnMod : Nat := 2 ^ 32

/-- From `log.hh`: `half_range = lsn_t(-1) >> 1`, i.e. `0xffffffff >> 1`. -/
def V6Log.half_range : Nat := (2 ^ 32 - 1) / 2

/-- `V6Log::le` from `log.hh` lines 41–44: `b - a <= half_range` in
`uint32_t` arithmetic.  For `a b < 2^32` the wrapped difference
`b - a` is `(b + 2^32 - a) % 2^32`; the `a % lsnMod` keeps the
definition total on `Nat`. -/
def V6Log.le (a b : Nat) : Bool :=
  (b + lsnMod - a % lsnMod) % lsnMod ≤ V6Log.half_range

/-- C6.  The claim states `le (a, b) = true` iff `(b − a) mod 2³² ≤ 2³¹`.
The code compares against `lsn_t(-1) >> 1 = 2³¹ − 1`, not `2³¹`, so the
claim fails at `a = 0`, `b = 2³¹`: the wrapped difference is exactly `2³¹`
yet `le` returns `false`. -/
theorem C6_counterexample :
    ¬ (∀ a b : Nat, a < 2 ^ 32 → b < 2 ^ 32 →
        (V6Log.le a b = true ↔ (b + 2 ^ 32 - a) % 2 ^ 32 ≤ 2 ^ 31)) := by
  intro h
  have h0 := (h 0 (2 ^ 31) (by norm_num) (by norm_num)).mpr (by norm_num)
  have : ¬ ((2 ^ 31 + lsnMod - 0 % lsnMod) % lsnMod ≤ V6Log.half_range) := by
    simp only [lsnMod, V6Log.half_range]
    norm_num
  simp only [V6Log.le, decide_eq_true_eq] at h0
  exact this h0

/-- C6 (amended).  `V6Log.le a b` holds iff the wrapped distance from `a`
to `b` is at most `2³¹ − 1`; equivalently, iff `b` is reachable from `a`
by adding some `k < 2³¹` modulo `2³²`. -/
theorem C6_le_iff_wrapped_distance (a b : Nat) (ha : a < 2 ^ 32) (hb : b < 2 ^ 32) :
    V6Log.le a b = true ↔ ∃ k : Nat, k < 2 ^ 31 ∧ b = (a + k) % 2 ^ 32 := by
  simp only [V6Log.le, lsnMod, V6Log.half_range, decide_eq_true_eq]
  constructor
  · intro h
    refine ⟨(b + 2 ^ 32 - a % 2 ^ 32) % 2 ^ 32, by omega, by omega⟩
  · rintro ⟨k, hk, rfl⟩
    omega

/-- Witness for the amended C6 theorem at `a = 5`, `b = 7`: the distance
is `2`, below `2³¹`. -/
theorem C6_le_iff_wrapped_distance_witness :
    V6Log.le 5 7 = true ↔ ∃ k : Nat, k < 2 ^ 31 ∧ 7 = (5 + k) % 2 ^ 32 :=
  C6_le_iff_wrapped_distance 5 7 (by norm_num) (by norm_num)

/-! ## Journal write path (`V6Log` from `log.hh` / `log.cc`) -/

/-- Decoded payload of a journal record: the alternatives of
`LogEntry::entry_type` in `logentry.hh` (variant index order preserved). -/
inductive Rec where
  | LogBegin
  | LogPatch (blockno offset_in_block : Nat) (bytes : List Nat)
  | LogBlockAlloc (blockno : Nat) (zero_on_replay : Bool)
  | LogBlockFree (blockno : Nat)
  | LogCommit (sequence : Nat)
  | LogRewind
deriving DecidableEq, Repr

/-- `LogEntry::nbytes`: header (`u32` sequence + `u8` type = 5 bytes) plus
the archived body plus footer (`u32` crc + `u32` sequence = 8 bytes);
byte-vectors carry a one-byte length prefix. -/
def LogEntry.nbytes : Rec → Nat
  | Rec.LogBegin => 5 + 0 + 8
  | Rec.LogPatch _ _ bytes => 5 + (2 + 2 + (1 + bytes.length)) + 8
  | Rec.LogBlockAlloc _ _ => 5 + (2 + 1) + 8
  | Rec.LogBlockFree _ => 5 + 2 + 8
  | Rec.LogCommit _ => 5 + 4 + 8
  | Rec.LogRewind => 5 + 0 + 8

/-- In-memory freemap (`Bitmap` from `bitmap.hh`): one bit per block in
the valid index range `[min_index, max_index)`. -/
structure Bitmap where
  bits : Nat → Bool
  min_index : Nat
  max_index : Nat

/-- Assignment to `Bitmap::at(n)` (`bitref::operator=`). -/
def Bitmap.setBit (m : Bitmap) (n : Nat) (v : Bool) : Bitmap :=
  { m with bits := fun i => if i = n then v else m.bits i }

/-- Modelled from the spec: `Bitmap::find1` (its implementation,
`bitmap.cc`, is not among the provided sources; the header documents it as
"Return the first 1 bit, starting at position start.  Returns -1 if there
are no bits set in the entire Bitmap").  We search `[start, max_index)`
and then wrap to the rest of the valid range; `none` models `-1`. -/
def Bitmap.find1 (m : Bitmap) (start : Nat) : Option Nat :=
  match (List.range' start (m.max_index - start)).find? (fun i => m.bits i) with
  | some i => some i
  | none => (List.range' m.min_index (m.max_index - m.min_index)).find? (fun i => m.bits i)

/-- State of a `V6Log` (`log.hh`).  The `FdWriter w_` byte sink is
abstracted as the current write offset `pos` (`w_.tell()`) together with
`emitted`, the trace of `le.save(w_)` calls as `(offset, lsn, record)`
triples.  `logstart`/`logend` are the byte offsets
`hdr_.logstart() * SECTOR_SIZE` / `hdr_.logend() * SECTOR_SIZE`, and
`l_checkpoint` is the header's checkpoint offset.  `datastart`/`fsize`
mirror the superblock fields used by `V6FS::badblock`. -/
structure LogState where
  sequence : Nat
  committed : Nat
  applied : Nat
  in_tx : Bool
  begin_sequence : Nat
  freemap : Bitmap
  freed : List Nat
  suppress_commit : Bool
  pos : Nat
  logstart : Nat
  logend : Nat
  l_checkpoint : Nat
  emitted : List (Nat × Nat × Rec)
  datastart : Nat
  fsize : Nat

/-- `V6FS::badblock`: `blockno < datastart() || blockno >= s_fsize`. -/
def LogState.badblock (st : LogState) (blockno : Nat) : Bool :=
  blockno < st.datastart || st.fsize ≤ blockno

/-- `loghdr::logbytes()`: usable ring bytes, `logend - logstart`. -/
def LogState.logbytes (st : LogState) : Nat := st.logend - st.logstart

/-- `V6Log::log` (`log.cc`): bump `sequence_`, and if the current position
plus space reserved for a `LogRewind` would cross `logend`, first save a
`LogRewind` (carrying the sequence number the entry would have had), bump
the sequence again, and seek back to `logstart` before saving the entry. -/
def V6Log.log (st : LogState) (e : Rec) : LogState :=
  if st.pos + LogEntry.nbytes Rec.LogRewind > st.logend then
    { st with
      sequence := ((st.sequence + 1) % lsnMod + 1) % lsnMod,
      pos := st.logstart + LogEntry.nbytes e,
      emitted := st.emitted ++
        [(st.pos, (st.sequence + 1) % lsnMod, Rec.LogRewind),
         (st.logstart, ((st.sequence + 1) % lsnMod + 1) % lsnMod, e)] }
  else
    { st with
      sequence := (st.sequence + 1) % lsnMod,
      pos := st.pos + LogEntry.nbytes e,
      emitted := st.emitted ++ [(st.pos, (st.sequence + 1) % lsnMod, e)] }

/-- `V6Log::begin`: reentrant `begin()` inside an open transaction returns
an empty `Tx` and changes nothing; otherwise a `LogBegin` is logged and its
LSN recorded in `begin_sequence_`. -/
def V6Log.begin (st : LogState) : LogState :=
  if st.in_tx then st
  else
    let st := V6Log.log st Rec.LogBegin
    { st with begin_sequence := st.sequence, in_tx := true }

/-- Body of `V6Log::bfree` once the `assert(in_tx_)` has passed: push the
block onto the pending `freed_` list and log a `LogBlockFree`.  The
in-memory freemap is not touched. -/
def V6Log.bfreeT (st : LogState) (blockno : Nat) : LogState :=
  V6Log.log { st with freed := st.freed ++ [blockno] } (Rec.LogBlockFree blockno)

/-- `V6Log::bfree` (`log.cc`): `assert(in_tx_)` aborts the process outside
a transaction, modelled as `none`. -/
def V6Log.bfree (st : LogState) (blockno : Nat) : Option LogState :=
  if st.in_tx then some (V6Log.bfreeT st blockno) else none

/-- `V6Log::balloc_near` (`log.cc`): normalize a bad hint to `datastart`,
scan the freemap for the next set (free) bit, clear it, log a
`LogBlockAlloc` when inside a transaction, and return the block number
(`0` when the bitmap has no set bit). -/
def V6Log.balloc_near (st : LogState) (near : Nat) (metadata : Bool) : Nat × LogState :=
  match st.freemap.find1 (if st.badblock near then st.datastart else near) with
  | none => (0, st)
  | some bn =>
    (bn,
     if st.in_tx then
       V6Log.log { st with freemap := st.freemap.setBit bn false }
         (Rec.LogBlockAlloc bn metadata)
     else { st with freemap := st.freemap.setBit bn false })

/-- `V6Log::flush` (`log.cc`): flush the write buffer (I/O, not part of
the state) and advance `committed_` — only up to `begin_sequence_` while a
transaction is open, and not at all under `suppress_commit_`. -/
def V6Log.flush (st : LogState) : LogState :=
  if st.suppress_commit then st
  else { st with committed := if st.in_tx then st.begin_sequence else st.sequence }

/-- `V6Log::space` (`log.cc`): available ring space between the write
position and the checkpoint. -/
def V6Log.space (st : LogState) : Nat :=
  if st.pos ≤ st.l_checkpoint then st.l_checkpoint - st.pos
  else st.logbytes - (st.pos - st.l_checkpoint)

/-- Final statements of `V6Log::checkpoint` after the flush: advance
`applied_` to `committed_` and fold any still-pending freed blocks into
the bitmap (the freemap and header-block disk writes carry no in-memory
state). -/
def V6Log.checkpointFinish (st : LogState) : LogState :=
  { st with
    applied := st.committed,
    freemap := st.freed.foldl (fun m bn => m.setBit bn true) st.freemap,
    freed := [] }

/-- The synthetic null transaction `V6Log::checkpoint` writes after moving
the header checkpoint to the current position: a `LogBegin` followed by a
`LogCommit` carrying the `LogBegin`'s LSN. -/
def V6Log.checkpointMark (st : LogState) : LogState :=
  V6Log.log (V6Log.log { st with l_checkpoint := st.pos } Rec.LogBegin)
    (Rec.LogCommit (V6Log.log { st with l_checkpoint := st.pos } Rec.LogBegin).sequence)

/-- `V6Log::checkpoint` (`log.cc`): under `suppress_commit_` only a
flush-and-sync (pure I/O) happens; otherwise move the checkpoint, write
the null transaction, flush, and finish. -/
def V6Log.checkpoint (st : LogState) : LogState :=
  if st.suppress_commit then st
  else V6Log.checkpointFinish (V6Log.flush (V6Log.checkpointMark st))

/-- First half of `V6Log::commit` (`log.cc`): log the `LogCommit` carrying
the matching `begin_sequence_`, fold the pending freed blocks into the
freemap, and close the transaction. -/
def V6Log.commitPost (st : LogState) : LogState :=
  { V6Log.log st (Rec.LogCommit st.begin_sequence) with
    freemap := (V6Log.log st (Rec.LogCommit st.begin_sequence)).freed.foldl
      (fun m bn => m.setBit bn true)
      (V6Log.log st (Rec.LogCommit st.begin_sequence)).freemap,
    freed := [],
    in_tx := false }

/-- `V6Log::commit` (`log.cc`): after `commitPost`, either flush (under
`suppress_commit_`; the abort-on-full path performs no state change) or
checkpoint when ring space has dropped below half or the 30-second timer
expired.  The timer compares wall-clock time and is passed in as
`timeElapsed`. -/
def V6Log.commit (st : LogState) (timeElapsed : Bool) : LogState :=
  if (V6Log.commitPost st).suppress_commit then V6Log.flush (V6Log.commitPost st)
  else if V6Log.space (V6Log.commitPost st) < (V6Log.commitPost st).logbytes / 2 then
    V6Log.checkpoint (V6Log.commitPost st)
  else if timeElapsed then V6Log.checkpoint (V6Log.commitPost st)
  else V6Log.commitPost st


/-! ## C5: blocks freed inside a transaction stay allocated until commit -/

/-- Clearing some bit never sets another: a clear bit stays clear. -/
theorem Bitmap.setBit_false_stays_false (m : Bitmap) (n b : Nat)
    (hb : m.bits b = false) : (m.setBit n false).bits b = false := by
  simp only [Bitmap.setBit]
  by_cases h : b = n <;> simp [h, hb]

/-- `find1` only ever returns an index whose bit is set. -/
theorem Bitmap.find1_bits (m : Bitmap) (start bn : Nat)
    (h : m.find1 start = some bn) : m.bits bn = true := by
  unfold Bitmap.find1 at h
  rcases hf : (List.range' start (m.max_index - start)).find? (fun i => m.bits i) with _ | i
  · rw [hf] at h
    simpa using List.find?_some h
  · rw [hf] at h
    cases h
    simpa using List.find?_some hf

/-- Folding `setBit · true` over a list sets every listed bit and
preserves every already-set bit. -/
theorem Bitmap.foldl_setBit_true_of_mem (l : List Nat) (m : Bitmap) (b : Nat)
    (hb : b ∈ l ∨ m.bits b = true) :
    (l.foldl (fun m bn => m.setBit bn true) m).bits b = true := by
  induction l generalizing m with
  | nil => simpa using hb.resolve_left (by simp)
  | cons x xs ih =>
    refine ih _ ?_
    rcases hb with hb | hb
    · rcases List.mem_cons.mp hb with rfl | hb
      · right; simp [Bitmap.setBit]
      · exact Or.inl hb
    · right
      simp only [Bitmap.setBit]
      by_cases h : b = x <;> simp [h, hb]

/-- `V6Log::log` leaves the freemap unchanged. -/
theorem V6Log.log_freemap (st : LogState) (e : Rec) :
    (V6Log.log st e).freemap = st.freemap := by
  unfold V6Log.log; split <;> rfl

/-- `V6Log::log` leaves the pending free list unchanged. -/
theorem V6Log.log_freed (st : LogState) (e : Rec) :
    (V6Log.log st e).freed = st.freed := by
  unfold V6Log.log; split <;> rfl

/-- `V6Log::log` leaves the transaction flag unchanged. -/
theorem V6Log.log_in_tx (st : LogState) (e : Rec) :
    (V6Log.log st e).in_tx = st.in_tx := by
  unfold V6Log.log; split <;> rfl

/-- `V6Log::log` leaves `begin_sequence_` unchanged. -/
theorem V6Log.log_begin_sequence (st : LogState) (e : Rec) :
    (V6Log.log st e).begin_sequence = st.begin_sequence := by
  unfold V6Log.log; split <;> rfl

/-- `V6Log::log` leaves `suppress_commit_` unchanged. -/
theorem V6Log.log_suppress (st : LogState) (e : Rec) :
    (V6Log.log st e).suppress_commit = st.suppress_commit := by
  unfold V6Log.log; split <;> rfl

/-- One body step of an open transaction: a raw record append, a `bfree`,
or a `balloc_near` (`log.cc`). -/
inductive TxStep : LogState → LogState → Prop
  | log (st : LogState) (e : Rec) : TxStep st (V6Log.log st e)
  | bfree (st : LogState) (bn : Nat) (st' : LogState) :
      V6Log.bfree st bn = some st' → TxStep st st'
  | balloc (st : LogState) (near : Nat) (md : Bool) (bn : Nat) (st' : LogState) :
      V6Log.balloc_near st near md = (bn, st') → TxStep st st'

/-- Any single in-transaction step keeps a clear freemap bit clear and
keeps every pending freed block pending. -/
theorem TxStep.preserve {st st' : LogState} (h : TxStep st st') (b : Nat) :
    (st.freemap.bits b = false → st'.freemap.bits b = false) ∧
    (b ∈ st.freed → b ∈ st'.freed) := by
  cases h with
  | log e =>
    rw [V6Log.log_freemap, V6Log.log_freed]
    exact ⟨id, id⟩
  | bfree bn st' hb =>
    unfold V6Log.bfree at hb
    split at hb
    · cases hb
      unfold V6Log.bfreeT
      rw [V6Log.log_freemap, V6Log.log_freed]
      exact ⟨id, fun hm => List.mem_append_left _ hm⟩
    · cases hb
  | balloc near md bn st' hb =>
    unfold V6Log.balloc_near at hb
    rcases hf : (st.freemap.find1 (if st.badblock near then st.datastart else near))
      with _ | bn'
    · rw [hf] at hb
      cases hb
      exact ⟨id, id⟩
    · rw [hf] at hb
      simp only at hb
      split at hb <;> cases hb
      · rw [V6Log.log_freemap, V6Log.log_freed]
        exact ⟨fun h0 => Bitmap.setBit_false_stays_false _ _ _ h0, id⟩
      · exact ⟨fun h0 => Bitmap.setBit_false_stays_false _ _ _ h0, id⟩


/-- `V6Log::flush` leaves the freemap unchanged. -/
theorem V6Log.flush_freemap (st : LogState) :
    (V6Log.flush st).freemap = st.freemap := by
  unfold V6Log.flush; split <;> rfl

/-- `V6Log::checkpoint` preserves any already-set freemap bit. -/
theorem V6Log.checkpoint_preserves_true (st : LogState) (b : Nat)
    (hb : st.freemap.bits b = true) :
    (V6Log.checkpoint st).freemap.bits b = true := by
  unfold V6Log.checkpoint
  split
  · exact hb
  · unfold V6Log.checkpointFinish
    refine Bitmap.foldl_setBit_true_of_mem _ _ _ (Or.inr ?_)
    rw [V6Log.flush_freemap]
    unfold V6Log.checkpointMark
    rw [V6Log.log_freemap, V6Log.log_freemap]
    exact hb

/-- `V6Log::commit` sets the freemap bit of every block on the pending
freed list. -/
theorem V6Log.commit_sets_freed (st : LogState) (bn : Nat) (hbn : bn ∈ st.freed)
    (timeElapsed : Bool) :
    (V6Log.commit st timeElapsed).freemap.bits bn = true := by
  have hpost : (V6Log.commitPost st).freemap.bits bn = true := by
    unfold V6Log.commitPost
    simp only
    rw [V6Log.log_freed]
    exact Bitmap.foldl_setBit_true_of_mem _ _ _ (Or.inl hbn)
  unfold V6Log.commit
  split
  · rw [V6Log.flush_freemap]; exact hpost
  · split
    · exact V6Log.checkpoint_preserves_true _ _ hpost
    · split
      · exact V6Log.checkpoint_preserves_true _ _ hpost
      · exact hpost

/-- C5.  For every block passed to `bfree` inside an open transaction, the
in-memory freemap bit stays clear across any further in-transaction steps
(`st1 —*→ st2`), so `balloc_near` can never hand that block out before the
commit; the block sits on the pending `freed_` list, and `commit` sets the
freemap bit of every pending freed block. -/
theorem C5_bfree_deferred_until_commit
    (st st1 st2 : LogState) (b : Nat)
    (hfree : V6Log.bfree st b = some st1)
    (hb : st.freemap.bits b = false)
    (hsteps : Relation.ReflTransGen TxStep st1 st2) :
    st2.freemap.bits b = false ∧
    b ∈ st2.freed ∧
    (∀ near md bn st3, V6Log.balloc_near st2 near md = (bn, st3) → bn ≠ 0 → bn ≠ b) ∧
    (∀ timeElapsed, ∀ bn ∈ st2.freed,
      (V6Log.commit st2 timeElapsed).freemap.bits bn = true) := by
  have hstep1 : st1.freemap.bits b = false ∧ b ∈ st1.freed := by
    unfold V6Log.bfree at hfree
    split at hfree
    · cases hfree
      unfold V6Log.bfreeT
      rw [V6Log.log_freemap, V6Log.log_freed]
      exact ⟨hb, List.mem_append_right _ (by simp)⟩
    · cases hfree
  have hinv : st2.freemap.bits b = false ∧ b ∈ st2.freed := by
    clear hfree
    induction hsteps with
    | refl => exact hstep1
    | tail _ hstep ih => exact ⟨(hstep.preserve b).1 ih.1, (hstep.preserve b).2 ih.2⟩
  refine ⟨hinv.1, hinv.2, ?_, ?_⟩
  · intro near md bn st3 halloc hbn hcontra
    unfold V6Log.balloc_near at halloc
    rcases hf : (st2.freemap.find1 (if st2.badblock near then st2.datastart else near))
      with _ | bn'
    · rw [hf] at halloc
      cases halloc
      exact hbn rfl
    · rw [hf] at halloc
      injection halloc with h1 h2
      subst h1
      subst hcontra
      have hbit := Bitmap.find1_bits _ _ _ hf
      rw [hinv.1] at hbit
      exact Bool.noConfusion hbit
  · intro timeElapsed bn hbn
    exact V6Log.commit_sets_freed st2 bn hbn timeElapsed

/-- A concrete `V6Log` state used to exercise C5 and C8: block 10 is the
only free block, no transaction is open, and the write position sits near
the end of the ring. -/
def C5st0 : LogState :=
  { sequence := 100, committed := 100, applied := 100, in_tx := false,
    begin_sequence := 0,
    freemap := { bits := fun i => decide (i = 10), min_index := 3, max_index := 50 },
    freed := [], suppress_commit := false,
    pos := 1000, logstart := 940, logend := 1030, l_checkpoint := 940,
    emitted := [], datastart := 3, fsize := 50 }

/-- Witness for C5: in the concrete state, `bfree 20` inside a transaction
leaves bit 20 clear, records 20 as pending, makes it unobtainable from
`balloc_near`, and `commit` re-sets it. -/
theorem C5_bfree_deferred_until_commit_witness :
    (V6Log.bfreeT (V6Log.begin C5st0) 20).freemap.bits 20 = false ∧
    20 ∈ (V6Log.bfreeT (V6Log.begin C5st0) 20).freed ∧
    (∀ near md bn st3,
      V6Log.balloc_near (V6Log.bfreeT (V6Log.begin C5st0) 20) near md = (bn, st3) →
        bn ≠ 0 → bn ≠ 20) ∧
    (∀ timeElapsed, ∀ bn ∈ (V6Log.bfreeT (V6Log.begin C5st0) 20).freed,
      (V6Log.commit (V6Log.bfreeT (V6Log.begin C5st0) 20) timeElapsed).freemap.bits bn
        = true) :=
  C5_bfree_deferred_until_commit (V6Log.begin C5st0) _ _ 20 rfl (by decide)
    Relation.ReflTransGen.refl

/-! ## C8: Rewind records and transactions -/

/-- The claim of C8 as a decidable check over an emitted record trace: no
`LogRewind` strictly between a `LogBegin` and a later `LogCommit` whose
`sequence` payload equals the `LogBegin`'s LSN. -/
def noRewindBetweenBeginCommit (tr : List (Nat × Nat × Rec)) : Bool :=
  (List.range tr.length).all fun i =>
    (List.range tr.length).all fun k =>
      match tr.get? i, tr.get? k with
      | some (_, bseq, Rec.LogBegin), some (_, _, Rec.LogCommit cs) =>
        if i < k ∧ cs = bseq then
          (List.range tr.length).all fun j =>
            if i < j ∧ j < k then
              match tr.get? j with
              | some (_, _, Rec.LogRewind) => false
              | _ => true
            else true
        else true
      | _, _ => true

/-- C8 counterexample.  Starting from the concrete state `C5st0` (write
position 1000, ring end 1030), open a transaction, `bfree` block 20, and
commit.  The `LogCommit` does not fit before `logend`, so `V6Log::log`
emits a `LogRewind` *between* the `LogBegin` (LSN 101) and its matching
`LogCommit` — the claim that Rewind never appears inside a transaction is
false. -/
theorem C8_counterexample :
    (V6Log.begin C5st0).in_tx = true ∧
    (V6Log.commit (V6Log.bfreeT (V6Log.begin C5st0) 20) false).emitted =
      [(1000, 101, Rec.LogBegin), (1013, 102, Rec.LogBlockFree 20),
       (1028, 103, Rec.LogRewind), (940, 104, Rec.LogCommit 101)] ∧
    noRewindBetweenBeginCommit
      (V6Log.commit (V6Log.bfreeT (V6Log.begin C5st0) 20) false).emitted = false :=
  ⟨by decide, by decide, by decide⟩

/-- C8 (amended).  A `LogRewind` is emitted by `V6Log::log` exactly when
the current write position plus the reserved rewind space would cross
`logend` — inside or outside a transaction alike (`in_tx_` plays no role
in the check), and it is the only record the wrap check inserts. -/
theorem C8_rewind_iff_wrap (st : LogState) (e : Rec) (he : e ≠ Rec.LogRewind) :
    (V6Log.log st e).emitted.countP (fun p => p.2.2 = Rec.LogRewind) =
      st.emitted.countP (fun p => p.2.2 = Rec.LogRewind) +
        (if st.pos + LogEntry.nbytes Rec.LogRewind > st.logend then 1 else 0) := by
  unfold V6Log.log
  split
  · simp [List.countP_append, List.countP_cons, he]
  · simp [List.countP_append, List.countP_cons, he]

/-- Witness for the amended C8: appending a `LogBegin` at `C5st0` (which
still fits in the ring) emits no rewind. -/
theorem C8_rewind_iff_wrap_witness :
    (V6Log.log C5st0 Rec.LogBegin).emitted.countP (fun p => p.2.2 = Rec.LogRewind) =
      C5st0.emitted.countP (fun p => p.2.2 = Rec.LogRewind) +
        (if C5st0.pos + LogEntry.nbytes Rec.LogRewind > C5st0.logend then 1 else 0) :=
  C8_rewind_iff_wrap C5st0 Rec.LogBegin (by decide)

/-! ## C10: records inside an open transaction are never committed early -/

/-- In-memory state of a cache slot (`CacheEntryBase` in `cache.hh`;
`dev_` is omitted because only one filesystem is modelled). -/
structure CEntry where
  id : Nat
  linked : Bool
  refcount : Nat
  initialized : Bool
  dirty : Bool
  logged : Bool
  lsn : Nat
deriving DecidableEq, Repr

/-- `CacheEntryBase::can_evict` (`cache.cc`): referenced entries never,
unlogged entries always, logged entries only once their LSN is within the
committed prefix of the log. -/
def CacheEntryBase.can_evict (e : CEntry) (committed : Nat) : Bool :=
  if e.refcount > 0 then false
  else if !e.logged then true
  else V6Log.le e.lsn committed

/-- Write-back eligibility from `CacheBase::flush_range` (`cache.cc`):
`c->dirty_ && (!c->logged_ || V6Log::le(c->lsn_, committed))`. -/
def CacheBase.wb_eligible (e : CEntry) (committed : Nat) : Bool :=
  e.dirty && (!e.logged || V6Log.le e.lsn committed)

/-- A transaction-body operation: a raw record append (`V6Log::log`, as
done by `log_patch`), a `balloc_near`, or a `bfree` (total variant; the
`in_tx_` assertion holds throughout a transaction body). -/
inductive TxOp where
  | oplog (e : Rec)
  | opballoc (near : Nat) (md : Bool)
  | opbfree (bn : Nat)

/-- Apply one transaction-body operation to the log state. -/
def applyTxOp (st : LogState) : TxOp → LogState
  | TxOp.oplog e => V6Log.log st e
  | TxOp.opballoc near md => (V6Log.balloc_near st near md).2
  | TxOp.opbfree bn => V6Log.bfreeT st bn

/-- Apply a list of transaction-body operations in order. -/
def applyTxOps (st : LogState) (ops : List TxOp) : LogState :=
  ops.foldl applyTxOp st

/-- Wrapped distance from LSN `b` up to LSN `x` (how many increments of
the 32-bit sequence counter lead from `b` to `x`). -/
def seqDist (b x : Nat) : Nat := (x + lsnMod - b % lsnMod) % lsnMod

/-- Incrementing the sequence counter advances the wrapped distance by
one, as long as the distance does not wrap. -/
theorem seqDist_succ (b x : Nat) (_hb : b < lsnMod) (hx : x < lsnMod)
    (hno : seqDist b x + 1 < lsnMod) :
    seqDist b ((x + 1) % lsnMod) = seqDist b x + 1 := by
  have hM : lsnMod = 4294967296 := by norm_num [lsnMod]
  simp only [seqDist, hM] at *
  omega

/-- An LSN whose wrapped distance from `b` lies in `[1, 2³¹]` is *not*
`le` the base `b`: `V6Log::le` sees it as strictly in the future. -/
theorem le_false_of_seqDist (b l : Nat) (hb : b < lsnMod) (hl : l < lsnMod)
    (h1 : 1 ≤ seqDist b l) (h2 : seqDist b l ≤ 2 ^ 31) :
    V6Log.le l b = false := by
  have hM : lsnMod = 4294967296 := by norm_num [lsnMod]
  simp only [seqDist, V6Log.le, V6Log.half_range, hM] at *
  simp only [decide_eq_false_iff_not, not_le]
  omega

/-- Transaction-body operations do not change the transaction flag,
`begin_sequence_`, or `suppress_commit_`. -/
theorem applyTxOp_fields (st : LogState) (op : TxOp) :
    (applyTxOp st op).in_tx = st.in_tx ∧
    (applyTxOp st op).begin_sequence = st.begin_sequence ∧
    (applyTxOp st op).suppress_commit = st.suppress_commit := by
  cases op with
  | oplog e =>
    exact ⟨V6Log.log_in_tx _ _, V6Log.log_begin_sequence _ _, V6Log.log_suppress _ _⟩
  | opballoc near md =>
    simp only [applyTxOp]
    unfold V6Log.balloc_near
    rcases hf : (st.freemap.find1 (if st.badblock near then st.datastart else near))
      with _ | bn'
    · exact ⟨rfl, rfl, rfl⟩
    · simp only
      split
      · exact ⟨V6Log.log_in_tx _ _, V6Log.log_begin_sequence _ _, V6Log.log_suppress _ _⟩
      · exact ⟨rfl, rfl, rfl⟩
  | opbfree bn =>
    exact ⟨V6Log.log_in_tx _ _, V6Log.log_begin_sequence _ _, V6Log.log_suppress _ _⟩

/-- Invariant of an open transaction body, relative to the `LogBegin` LSN
`b` and the length `base` of the emitted trace at `begin()` time: the
transaction is open with `begin_sequence_ = b`, the sequence counter is a
valid LSN, and every record emitted after the `LogBegin` carries an LSN
whose wrapped distance from `b` lies in `[1, seqDist b sequence]`. -/
def TxInv (b base : Nat) (st : LogState) : Prop :=
  st.in_tx = true ∧ st.begin_sequence = b ∧ b < lsnMod ∧ st.sequence < lsnMod ∧
  base ≤ st.emitted.length ∧
  ∀ p ∈ st.emitted.drop base,
    p.2.1 < lsnMod ∧ 1 ≤ seqDist b p.2.1 ∧ seqDist b p.2.1 ≤ seqDist b st.sequence

/-- `V6Log::log` maintains the transaction invariant and advances the
sequence distance by at most 2 (1 for the record, plus 1 when a
`LogRewind` is inserted). -/
theorem TxInv.log (b base : Nat) (st : LogState) (e : Rec)
    (h : TxInv b base st) (hno : seqDist b st.sequence + 2 < lsnMod) :
    TxInv b base (V6Log.log st e) ∧
    seqDist b (V6Log.log st e).sequence ≤ seqDist b st.sequence + 2 := by
  obtain ⟨htx, hbs, hb, hs, hbase, hrec⟩ := h
  have hMpos : 0 < lsnMod := by norm_num [lsnMod]
  have hs1lt : (st.sequence + 1) % lsnMod < lsnMod := Nat.mod_lt _ hMpos
  have hs2lt : ((st.sequence + 1) % lsnMod + 1) % lsnMod < lsnMod := Nat.mod_lt _ hMpos
  have hd1 : seqDist b ((st.sequence + 1) % lsnMod) = seqDist b st.sequence + 1 :=
    seqDist_succ b st.sequence hb hs (by omega)
  have hd2 : seqDist b (((st.sequence + 1) % lsnMod + 1) % lsnMod) =
      seqDist b st.sequence + 2 := by
    rw [seqDist_succ b _ hb hs1lt (by omega), hd1]
  unfold V6Log.log
  split
  · refine ⟨⟨htx, hbs, hb, hs2lt, ?_, ?_⟩, ?_⟩
    · simp only [List.length_append]
      omega
    · intro p hp
      simp only at hp
      rw [List.drop_append_of_le_length hbase] at hp
      simp only [seqDist, hd2]
      rw [← seqDist.eq_def, ← seqDist.eq_def, hd2]
      rcases List.mem_append.mp hp with hp | hp
      · obtain ⟨hlt, h1, h2⟩ := hrec p hp
        exact ⟨hlt, h1, by omega⟩
      · simp only [List.mem_cons, List.mem_singleton] at hp
        rcases hp with rfl | rfl | hcontra
        · simp only
          rw [hd1]
          exact ⟨hs1lt, by omega, by omega⟩
        · simp only
          rw [hd2]
          exact ⟨hs2lt, by omega, by omega⟩
        · cases hcontra
    · simp only
      rw [hd2]
  · refine ⟨⟨htx, hbs, hb, hs1lt, ?_, ?_⟩, ?_⟩
    · simp only [List.length_append]
      omega
    · intro p hp
      simp only at hp
      rw [List.drop_append_of_le_length hbase] at hp
      rcases List.mem_append.mp hp with hp | hp
      · obtain ⟨hlt, h1, h2⟩ := hrec p hp
        refine ⟨hlt, h1, ?_⟩
        simp only
        rw [hd1]
        omega
      · simp only [List.mem_singleton] at hp
        subst hp
        simp only
        rw [hd1]
        exact ⟨hs1lt, by omega, by omega⟩
    · simp only
      rw [hd1]
      omega

/-- Every transaction-body operation maintains the transaction invariant
and advances the sequence distance by at most 2. -/
theorem TxInv.step (b base : Nat) (st : LogState) (op : TxOp)
    (h : TxInv b base st) (hno : seqDist b st.sequence + 2 < lsnMod) :
    TxInv b base (applyTxOp st op) ∧
    seqDist b (applyTxOp st op).sequence ≤ seqDist b st.sequence + 2 := by
  cases op with
  | oplog e => exact TxInv.log b base st e h hno
  | opbfree bn =>
    have h' : TxInv b base { st with freed := st.freed ++ [bn] } := h
    exact TxInv.log b base _ (Rec.LogBlockFree bn) h' hno
  | opballoc near md =>
    simp only [applyTxOp]
    unfold V6Log.balloc_near
    rcases hf : (st.freemap.find1 (if st.badblock near then st.datastart else near))
      with _ | bn'
    · exact ⟨h, by show seqDist b st.sequence ≤ seqDist b st.sequence + 2; omega⟩
    · simp only
      split
      · have h' : TxInv b base { st with freemap := st.freemap.setBit bn' false } := h
        exact TxInv.log b base _ (Rec.LogBlockAlloc bn' md) h' hno
      · exact ⟨h, by show seqDist b st.sequence ≤ seqDist b st.sequence + 2; omega⟩

/-- Applying a list of transaction-body operations maintains the
invariant; the total sequence distance is bounded by twice the number of
operations. -/
theorem TxInv.steps (b base : Nat) (ops : List TxOp) (st : LogState)
    (h : TxInv b base st)
    (hno : seqDist b st.sequence + 2 * ops.length + 2 ≤ 2 ^ 31) :
    TxInv b base (applyTxOps st ops) ∧
    seqDist b (applyTxOps st ops).sequence ≤ seqDist b st.sequence + 2 * ops.length := by
  induction ops generalizing st with
  | nil => exact ⟨h, by simp [applyTxOps]⟩
  | cons op ops ih =>
    have hM : 2 ^ 31 < lsnMod := by norm_num [lsnMod]
    simp only [List.length_cons] at hno
    have hstep := TxInv.step b base st op h (by omega)
    have hrest := ih (applyTxOp st op) hstep.1 (by omega)
    refine ⟨hrest.1, ?_⟩
    have : applyTxOps st (op :: ops) = applyTxOps (applyTxOp st op) ops := rfl
    rw [this]
    simp only [List.length_cons]
    omega

/-- `V6Log::begin` from a state outside any transaction establishes the
transaction invariant: `begin_sequence_` is the `LogBegin`'s LSN and the
distance from it to the sequence counter is zero. -/
theorem TxInv.of_begin (st0 : LogState) (hnotx : st0.in_tx = false) :
    TxInv (V6Log.begin st0).begin_sequence (V6Log.begin st0).emitted.length
      (V6Log.begin st0) ∧
    seqDist (V6Log.begin st0).begin_sequence (V6Log.begin st0).sequence = 0 := by
  have hMpos : 0 < lsnMod := by norm_num [lsnMod]
  have hdist0 : ∀ x : Nat, x < lsnMod → seqDist x x = 0 := by
    intro x hx
    have hM : lsnMod = 4294967296 := by norm_num [lsnMod]
    simp only [seqDist, hM] at *
    omega
  unfold V6Log.begin
  rw [hnotx]
  simp only [Bool.false_eq_true, if_false]
  have hslt : (V6Log.log st0 Rec.LogBegin).sequence < lsnMod := by
    unfold V6Log.log
    split
    · exact Nat.mod_lt _ hMpos
    · exact Nat.mod_lt _ hMpos
  refine ⟨⟨rfl, rfl, hslt, hslt, le_refl _, ?_⟩, hdist0 _ hslt⟩
  intro p hp
  rw [List.drop_length] at hp
  cases hp

/-- Transaction-body operations never change `suppress_commit_`. -/
theorem applyTxOps_suppress (st : LogState) (ops : List TxOp) :
    (applyTxOps st ops).suppress_commit = st.suppress_commit := by
  induction ops generalizing st with
  | nil => rfl
  | cons op ops ih =>
    rw [show applyTxOps st (op :: ops) = applyTxOps (applyTxOp st op) ops from rfl,
      ih, (applyTxOp_fields st op).2.2]

/-- `V6Log::begin` never changes `suppress_commit_`. -/
theorem V6Log.begin_suppress (st : LogState) :
    (V6Log.begin st).suppress_commit = st.suppress_commit := by
  unfold V6Log.begin
  split
  · rfl
  · rw [show ({ V6Log.log st Rec.LogBegin with
        begin_sequence := (V6Log.log st Rec.LogBegin).sequence,
        in_tx := true } : LogState).suppress_commit
      = (V6Log.log st Rec.LogBegin).suppress_commit from rfl]
    exact V6Log.log_suppress st Rec.LogBegin

/-- C10.  While a transaction opened by `begin()` is running (any sequence
of body operations `ops`), `V6Log::flush` advances `committed_` only to
the LSN of that transaction's `LogBegin`; every record logged inside the
open transaction carries an LSN strictly after `committed_` in the wrapped
order, so a logged cache entry stamped with such an LSN can be neither
evicted (`CacheEntryBase::can_evict`) nor written back
(`CacheBase::flush_range`'s eligibility test) until a later flush. -/
theorem C10_open_tx_blocks_eviction
    (st0 : LogState) (ops : List TxOp) (e : CEntry) (p : Nat × Nat × Rec)
    (hnotx : st0.in_tx = false)
    (hsup : st0.suppress_commit = false)
    (hops : 2 * ops.length + 2 ≤ 2 ^ 31)
    (hp : p ∈ (applyTxOps (V6Log.begin st0) ops).emitted.drop
            (V6Log.begin st0).emitted.length)
    (hlsn : e.lsn = p.2.1) (hlog : e.logged = true) :
    (V6Log.flush (applyTxOps (V6Log.begin st0) ops)).committed =
      (V6Log.begin st0).begin_sequence ∧
    V6Log.le e.lsn ((V6Log.flush (applyTxOps (V6Log.begin st0) ops)).committed) = false ∧
    CacheEntryBase.can_evict e
      ((V6Log.flush (applyTxOps (V6Log.begin st0) ops)).committed) = false ∧
    CacheBase.wb_eligible e
      ((V6Log.flush (applyTxOps (V6Log.begin st0) ops)).committed) = false := by
  obtain ⟨hinv0, hdist0⟩ := TxInv.of_begin st0 hnotx
  set b := (V6Log.begin st0).begin_sequence with hbdef
  set base := (V6Log.begin st0).emitted.length with hbasedef
  obtain ⟨hinv, hbound⟩ := TxInv.steps b base ops (V6Log.begin st0) hinv0 (by omega)
  obtain ⟨htx, hbs, hblt, hslt, hbase, hrec⟩ := hinv
  have hsup2 : (applyTxOps (V6Log.begin st0) ops).suppress_commit = false := by
    rw [applyTxOps_suppress, V6Log.begin_suppress]
    exact hsup
  have hcommitted : (V6Log.flush (applyTxOps (V6Log.begin st0) ops)).committed = b := by
    unfold V6Log.flush
    rw [hsup2]
    simp only [Bool.false_eq_true, if_false, htx, if_true]
    exact hbs
  obtain ⟨hplt, hp1, hp2⟩ := hrec p hp
  have hle : V6Log.le e.lsn b = false := by
    rw [hlsn]
    exact le_false_of_seqDist b p.2.1 hblt hplt hp1 (by omega)
  refine ⟨hcommitted, ?_, ?_, ?_⟩
  · rw [hcommitted]
    exact hle
  · rw [hcommitted]
    unfold CacheEntryBase.can_evict
    rw [hlog, hle]
    simp
  · rw [hcommitted]
    unfold CacheBase.wb_eligible
    rw [hlog, hle]
    simp

/-- Witness for C10: from the concrete state `C5st0`, open a transaction
and `bfree` block 20; the `LogBlockFree` record at LSN 102 is strictly
after the flushed `committed_ = 101`, so the matching dirty logged cache
entry is pinned. -/
theorem C10_open_tx_blocks_eviction_witness :
    (V6Log.flush (applyTxOps (V6Log.begin C5st0) [TxOp.opbfree 20])).committed =
      (V6Log.begin C5st0).begin_sequence ∧
    V6Log.le 102
      ((V6Log.flush (applyTxOps (V6Log.begin C5st0) [TxOp.opbfree 20])).committed) = false ∧
    CacheEntryBase.can_evict
      { id := 7, linked := true, refcount := 0, initialized := true,
        dirty := true, logged := true, lsn := 102 }
      ((V6Log.flush (applyTxOps (V6Log.begin C5st0) [TxOp.opbfree 20])).committed) = false ∧
    CacheBase.wb_eligible
      { id := 7, linked := true, refcount := 0, initialized := true,
        dirty := true, logged := true, lsn := 102 }
      ((V6Log.flush (applyTxOps (V6Log.begin C5st0) [TxOp.opbfree 20])).committed) = false :=
  C10_open_tx_blocks_eviction C5st0 [TxOp.opbfree 20]
    { id := 7, linked := true, refcount := 0, initialized := true,
      dirty := true, logged := true, lsn := 102 }
    (1013, 102, Rec.LogBlockFree 20)
    (by decide) (by decide) (by norm_num) (by decide) rfl rfl

/-! ## C2: XEX round trip (`crypto.cc`) -/

/-- `xorbuf` from `crypto.cc`: byte-wise XOR of two equal-length buffers
(the 64-bit-lane loop computes exactly the byte-wise XOR). -/
def xorbuf (a b : List Nat) : List Nat := List.zipWith (fun x y => x ^^^ y) a b

/-- The 16-byte big-endian encoding of a block number that
`PageCrypter::tweaks` writes into the tweak buffer
(`res[i + j] = blockno & 0xff` for `j` from 15 down to 0, shifting
`blockno` right by 8 each step). -/
def bigendian16 (n : Nat) : List Nat :=
  (List.range 16).map (fun j => n / 256 ^ (15 - j) % 256)

/-- One `EVP_EncryptUpdate`/`EVP_DecryptUpdate` call with `aes_128_ecb`:
the 16-byte block primitive `f` applied independently to each 16-byte
block of the buffer.  The primitive itself (OpenSSL AES-128) lives
outside the repository and is a parameter. -/
def ecb (f : List Nat → List Nat) (l : List Nat) : List Nat :=
  if h : l = [] then [] else f (l.take 16) ++ ecb f (l.drop 16)
termination_by l.length
decreasing_by
  simp only [List.length_drop]
  have : 0 < l.length := List.length_pos.mpr h
  omega

/-- The plaintext of the tweak buffer built by `PageCrypter::tweaks`: for
each 16-byte block `t`, the big-endian encoding of `(offset + 16·t)/16`. -/
def tweakPlain (offset len : Nat) : List Nat :=
  ((List.range (len / 16)).map (fun t => bigendian16 ((offset + 16 * t) / 16))).flatten

/-- `PageCrypter::tweaks` (`crypto.cc`): reject unaligned `offset`/`len`
(the C++ throws `std::domain_error`, modelled as `none`), then
ECB-encrypt the block-number buffer under K2 (`&key_[16]`, the second
half of the 32-byte key) — note encryption is used even on the decrypt
path. -/
def PageCrypter.tweaks (aesE : List Nat → List Nat → List Nat) (key : List Nat)
    (offset len : Nat) : Option (List Nat) :=
  if offset % 16 ≠ 0 ∨ len % 16 ≠ 0 then none
  else some (ecb (aesE (key.drop 16)) (tweakPlain offset len))

/-- `PageCrypter::encrypt` (`crypto.cc` lines 64–78): XOR the source with
the tweak buffer, ECB-encrypt under K1 (the first 16 key bytes), and XOR
with the tweak buffer again.  The buffer is `len = src.length` bytes. -/
def PageCrypter.encrypt (aesE : List Nat → List Nat → List Nat) (key : List Nat)
    (src : List Nat) (offset : Nat) : Option (List Nat) :=
  match PageCrypter.tweaks aesE key offset src.length with
  | none => none
  | some tw => some (xorbuf (ecb (aesE (key.take 16)) (xorbuf src tw)) tw)

/-- `PageCrypter::decrypt` (`crypto.cc` lines 80–94): identical to
`encrypt` except the middle pass uses the AES-128 block *decryption*
primitive; the tweaks are still computed with encryption. -/
def PageCrypter.decrypt (aesE aesD : List Nat → List Nat → List Nat) (key : List Nat)
    (src : List Nat) (offset : Nat) : Option (List Nat) :=
  match PageCrypter.tweaks aesE key offset src.length with
  | none => none
  | some tw => some (xorbuf (ecb (aesD (key.take 16)) (xorbuf src tw)) tw)

/-- XORing with the same buffer twice is the identity (on equal-length
buffers). -/
theorem xorbuf_cancel (a b : List Nat) (h : a.length = b.length) :
    xorbuf (xorbuf a b) b = a := by
  induction a generalizing b with
  | nil => simp [xorbuf]
  | cons x xs ih =>
    cases b with
    | nil => cases h
    | cons y ys =>
      simp only [xorbuf, List.zipWith_cons_cons, List.cons.injEq]
      refine ⟨?_, ih ys (by simpa using h)⟩
      rw [Nat.xor_assoc, Nat.xor_self, Nat.xor_zero]


/-- The length of `xorbuf`. -/
theorem xorbuf_length (a b : List Nat) :
    (xorbuf a b).length = min a.length b.length := by
  simp [xorbuf]

/-- `ecb` preserves the length of 16-byte-aligned buffers when the block
primitive preserves block length. -/
theorem ecb_length (f : List Nat → List Nat)
    (hf : ∀ b : List Nat, b.length = 16 → (f b).length = 16) :
    ∀ n (l : List Nat), l.length = n → l.length % 16 = 0 →
      (ecb f l).length = l.length := by
  intro n
  induction n using Nat.strong_induction_on with
  | _ n ih =>
    intro l hlen hmod
    by_cases hnil : l = []
    · subst hnil
      simp [ecb]
    · have hpos : 0 < l.length := List.length_pos.mpr hnil
      have h16 : 16 ≤ l.length := by omega
      rw [ecb, dif_neg hnil]
      have htake : (l.take 16).length = 16 := by
        simp [List.length_take]
        omega
      have hdrop : (l.drop 16).length = l.length - 16 := by simp
      have hrec := ih (l.length - 16) (by omega) (l.drop 16) (by omega) (by omega)
      simp only [List.length_append, hf _ htake, hrec, hdrop]
      omega

/-- ECB decryption inverts ECB encryption blockwise. -/
theorem ecb_ecb (f g : List Nat → List Nat)
    (hf : ∀ b : List Nat, b.length = 16 → (f b).length = 16)
    (hgf : ∀ b : List Nat, b.length = 16 → g (f b) = b) :
    ∀ n (l : List Nat), l.length = n → l.length % 16 = 0 →
      ecb g (ecb f l) = l := by
  intro n
  induction n using Nat.strong_induction_on with
  | _ n ih =>
    intro l hlen hmod
    by_cases hnil : l = []
    · subst hnil
      simp [ecb]
    · have hpos : 0 < l.length := List.length_pos.mpr hnil
      have h16 : 16 ≤ l.length := by omega
      have htake : (l.take 16).length = 16 := by
        simp [List.length_take]
        omega
      have hflen : (f (l.take 16)).length = 16 := hf _ htake
      have hfne : f (l.take 16) ≠ [] := by
        intro hcon
        rw [hcon] at hflen
        cases hflen
      have hunfl : ecb f l = f (l.take 16) ++ ecb f (l.drop 16) := by
        rw [ecb, dif_neg hnil]
      have hunfo : ecb g (f (l.take 16) ++ ecb f (l.drop 16)) =
          g ((f (l.take 16) ++ ecb f (l.drop 16)).take 16) ++
            ecb g ((f (l.take 16) ++ ecb f (l.drop 16)).drop 16) := by
        rw [ecb, dif_neg (by simp [hfne])]
      rw [hunfl, hunfo, List.take_left' hflen, List.drop_left' hflen]
      rw [hgf _ htake, ih (l.length - 16) (by omega) (l.drop 16) (by simp) (by simp; omega)]
      exact List.take_append_drop 16 l

/-- The tweak-buffer plaintext for an aligned request is as long as the
request. -/
theorem tweakPlain_length (offset len : Nat) (h : len % 16 = 0) :
    (tweakPlain offset len).length = len := by
  simp only [tweakPlain, List.length_flatten, List.map_map]
  have : ∀ t : Nat, (bigendian16 t).length = 16 := by
    intro t
    simp [bigendian16]
  simp only [Function.comp_def, this]
  rw [List.map_const', List.sum_replicate, List.length_range]
  simp only [smul_eq_mul]
  omega

/-- C2.  For any 32-byte key, any aligned `(len, offset)` (both multiples
of 16, with `len = p.length`), and any AES-128 block primitive pair in
which decryption inverts encryption and blocks keep their 16-byte length,
`PageCrypter::decrypt ∘ PageCrypter::encrypt` is the identity. -/
theorem C2_decrypt_encrypt_roundtrip
    (aesE aesD : List Nat → List Nat → List Nat) (key p : List Nat) (offset : Nat)
    (hoff : offset % 16 = 0) (hlen : p.length % 16 = 0)
    (hE1len : ∀ b : List Nat, b.length = 16 → (aesE (key.take 16) b).length = 16)
    (hE2len : ∀ b : List Nat, b.length = 16 → (aesE (key.drop 16) b).length = 16)
    (hinv : ∀ b : List Nat, b.length = 16 → aesD (key.take 16) (aesE (key.take 16) b) = b) :
    ∃ ct, PageCrypter.encrypt aesE key p offset = some ct ∧
      PageCrypter.decrypt aesE aesD key ct offset = some p := by
  have haligned : ¬ (offset % 16 ≠ 0 ∨ p.length % 16 ≠ 0) := by omega
  have htw : PageCrypter.tweaks aesE key offset p.length =
      some (ecb (aesE (key.drop 16)) (tweakPlain offset p.length)) := by
    unfold PageCrypter.tweaks
    rw [if_neg haligned]
  set tw := ecb (aesE (key.drop 16)) (tweakPlain offset p.length) with htwdef
  have htwlen : tw.length = p.length := by
    rw [htwdef, ecb_length _ hE2len _ _ rfl (by rw [tweakPlain_length _ _ hlen]; omega),
      tweakPlain_length _ _ hlen]
  have hx1len : (xorbuf p tw).length = p.length := by
    rw [xorbuf_length, htwlen, Nat.min_self]
  have hmid : (ecb (aesE (key.take 16)) (xorbuf p tw)).length = p.length := by
    rw [ecb_length _ hE1len _ _ rfl (by omega), hx1len]
  set ct := xorbuf (ecb (aesE (key.take 16)) (xorbuf p tw)) tw with hctdef
  have hctlen : ct.length = p.length := by
    rw [hctdef, xorbuf_length, hmid, htwlen, Nat.min_self]
  refine ⟨ct, ?_, ?_⟩
  · unfold PageCrypter.encrypt
    rw [htw]
  · unfold PageCrypter.decrypt
    rw [hctlen, htw]
    show some (xorbuf (ecb (aesD (key.take 16)) (xorbuf ct tw)) tw) = some p
    have hcancel : xorbuf ct tw = ecb (aesE (key.take 16)) (xorbuf p tw) := by
      rw [hctdef]
      exact xorbuf_cancel _ _ (by rw [hmid, htwlen])
    rw [hcancel, ecb_ecb _ _ hE1len hinv _ _ rfl (by rw [hx1len]; omega)]
    rw [xorbuf_cancel _ _ (by rw [htwlen])]

/-- Witness for C2 with the identity block primitive, an all-zero 32-byte
key, a 16-byte buffer of sevens, and offset 16. -/
theorem C2_decrypt_encrypt_roundtrip_witness :
    ∃ ct,
      PageCrypter.encrypt (fun _ b => b) (List.replicate 32 0)
        (List.replicate 16 7) 16 = some ct ∧
      PageCrypter.decrypt (fun _ b => b) (fun _ b => b) (List.replicate 32 0)
        ct 16 = some (List.replicate 16 7) :=
  C2_decrypt_encrypt_roundtrip (fun _ b => b) (fun _ b => b)
    (List.replicate 32 0) (List.replicate 16 7) 16
    (by decide) (by decide) (fun b hb => hb) (fun b hb => hb) (fun b _ => rfl)

/-! ## C4: cache victim selection (`cache.cc`) -/

/-- State of one cache (`CacheBase` in `cache.hh`), for a single
filesystem: the LRU list of slots (front = least recently used; `touch`
moves to the back), the log's `committed_`, the value `committed_` takes
if `flush_all_logs` forces a `V6Log::flush` (per the `V6Log` model:
`begin_sequence_` inside a transaction, else `sequence_`), and the
observable trace of write-backs performed by eviction. -/
structure CacheSt where
  lru : List CEntry
  committed : Nat
  flushTarget : Nat
  writebacks : List Nat
deriving DecidableEq, Repr

/-- Index of the first slot `CacheBase::alloc` accepts: a free
(un-indexed) slot or an evictable one, scanning from the LRU front. -/
def CacheBase.allocIdx (committed : Nat) : List CEntry → Option Nat
  | [] => none
  | e :: rest =>
    if !e.linked then some 0
    else if CacheEntryBase.can_evict e committed then some 0
    else (CacheBase.allocIdx committed rest).map (· + 1)

/-- `CacheBase::alloc` (`cache.cc`): return the chosen slot's index; when
the slot held cached data (`idxlink_.is_linked()`), write it back if
dirty, clear `dirty_`/`logged_`/`initialized_`, and unlink it from the
index. -/
def CacheBase.alloc (st : CacheSt) : Option (Nat × CacheSt) :=
  match CacheBase.allocIdx st.committed st.lru with
  | none => none
  | some i =>
    match st.lru.get? i with
    | none => none
    | some e =>
      if !e.linked then some (i, st)
      else
        some (i,
          { st with
            lru := st.lru.set i
              { e with
                linked := false
                dirty := false
                logged := false
                initialized := false }
            writebacks := st.writebacks ++ if e.dirty then [e.id] else [] })

/-- The index lookup `index_[{dev, id}]`: the first slot that is indexed
under `id`. -/
def CacheBase.findIdx (lru : List CEntry) (k : Nat) : Option Nat :=
  lru.findIdx? (fun e => e.linked && e.id == k)

/-- `CacheBase::touch` (`cache.cc`): move a slot to the back of the LRU
list. -/
def CacheBase.touch (st : CacheSt) (i : Nat) : CacheSt :=
  match st.lru.get? i with
  | none => st
  | some e => { st with lru := st.lru.eraseIdx i ++ [e] }

/-- `CacheBase::flush_all_logs` (`cache.cc`): force every device's
`V6Log::flush`, which raises `committed_` to the flush target. -/
def CacheBase.flush_all_logs (st : CacheSt) : CacheSt :=
  { st with committed := st.flushTarget }

/-- Install `(dev, id)` in a freshly allocated slot and index it
(`e->dev_ = dev; e->id_ = id; index_.insert(e)` in `CacheBase::lookup`). -/
def CacheBase.install (st : CacheSt) (i k : Nat) : CacheSt :=
  match st.lru.get? i with
  | none => st
  | some e => { st with lru := st.lru.set i { e with id := k, linked := true } }

/-- `CacheBase::lookup` (`cache.cc`): return the indexed slot (touched to
MRU), or allocate a victim; when allocation fails, force all logs and
retry exactly once; if it still fails, throw `resource_exhausted`
(modelled as `none`). -/
def CacheBase.lookup (st : CacheSt) (k : Nat) : Option CacheSt :=
  match CacheBase.findIdx st.lru k with
  | some i => some (CacheBase.touch st i)
  | none =>
    match CacheBase.alloc st with
    | some (i, st') => some (CacheBase.touch (CacheBase.install st' i k) i)
    | none =>
      match CacheBase.alloc (CacheBase.flush_all_logs st) with
      | some (i, st') => some (CacheBase.touch (CacheBase.install st' i k) i)
      | none => none

/-- A one-slot cache holding a dirty, unlogged, unreferenced entry for
block 5. -/
def C4st : CacheSt :=
  { lru := [{ id := 5, linked := true, refcount := 0, initialized := true,
              dirty := true, logged := false, lsn := 0 }],
    committed := 0, flushTarget := 0, writebacks := [] }

/-- C4 counterexample.  The claim asserts that dirty-but-unlogged entries
are never evicted, yet `can_evict` accepts them (`!logged_` returns
`true`), and a missing lookup evicts exactly such an entry: it is written
back (trace `[5]`) and its slot is recycled for block 7. -/
theorem C4_counterexample :
    CacheEntryBase.can_evict
      { id := 5, linked := true, refcount := 0, initialized := true,
        dirty := true, logged := false, lsn := 0 } 0 = true ∧
    CacheBase.lookup C4st 7 =
      some { lru := [{ id := 7, linked := true, refcount := 0, initialized := false,
                       dirty := false, logged := false, lsn := 0 }],
             committed := 0, flushTarget := 0, writebacks := [5] } := by
  constructor
  · decide
  · decide

/-- Any slot index accepted by the alloc scan is a free slot or an
evictable one. -/
theorem CacheBase.allocIdx_spec (committed : Nat) (l : List CEntry) (i : Nat)
    (h : CacheBase.allocIdx committed l = some i) :
    ∃ e, l.get? i = some e ∧
      (e.linked = false ∨ CacheEntryBase.can_evict e committed = true) := by
  induction l generalizing i with
  | nil => cases h
  | cons e rest ih =>
    unfold CacheBase.allocIdx at h
    split at h
    · cases h
      rename_i hfree
      exact ⟨e, rfl, Or.inl (by simpa using hfree)⟩
    · split at h
      · cases h
        rename_i hev
        exact ⟨e, rfl, Or.inr hev⟩
      · rcases hrec : CacheBase.allocIdx committed rest with _ | j
        · rw [hrec] at h
          cases h
        · rw [hrec] at h
          simp only [Option.map_some'] at h
          obtain rfl : j + 1 = i := Option.some.inj h
          obtain ⟨e', he', hor⟩ := ih j hrec
          exact ⟨e', he', hor⟩

/-- C4 (amended).  On a cache miss, any victim produced by either
allocation attempt is a free slot or an entry with `refcount = 0` that is
clean, or dirty-and-unlogged, or dirty-logged with `lsn ≤ committed`
(dirty-unlogged entries *are* evictable, after write-back);
dirty-logged-but-not-yet-committed entries are never eligible; and the
lookup fails with `ResourceExhausted` exactly when both the first
allocation and the retry after forcing the logs find no victim. -/
theorem C4_victim_selection (st : CacheSt) (k : Nat)
    (hmiss : CacheBase.findIdx st.lru k = none) :
    (∀ i st', CacheBase.alloc st = some (i, st') →
      ∃ e, st.lru.get? i = some e ∧
        (e.linked = false ∨
         (e.refcount = 0 ∧
          (e.dirty = false ∨ e.logged = false ∨ V6Log.le e.lsn st.committed = true)))) ∧
    (∀ i st', CacheBase.alloc (CacheBase.flush_all_logs st) = some (i, st') →
      ∃ e, st.lru.get? i = some e ∧
        (e.linked = false ∨
         (e.refcount = 0 ∧
          (e.dirty = false ∨ e.logged = false ∨ V6Log.le e.lsn st.flushTarget = true)))) ∧
    (∀ e : CEntry, e.dirty = true → e.logged = true →
      V6Log.le e.lsn st.committed = false →
      CacheEntryBase.can_evict e st.committed = false) ∧
    (CacheBase.lookup st k = none ↔
      (CacheBase.alloc st = none ∧
       CacheBase.alloc (CacheBase.flush_all_logs st) = none)) := by
  have hchar : ∀ (c : Nat) (s : CacheSt), s.lru = st.lru → s.committed = c →
      ∀ i st', CacheBase.alloc s = some (i, st') →
      ∃ e, st.lru.get? i = some e ∧
        (e.linked = false ∨
         (e.refcount = 0 ∧
          (e.dirty = false ∨ e.logged = false ∨ V6Log.le e.lsn c = true))) := by
    intro c s hslru hscomm i st' halloc
    unfold CacheBase.alloc at halloc
    rcases hidx : CacheBase.allocIdx s.committed s.lru with _ | j
    · rw [hidx] at halloc
      cases halloc
    · rw [hidx] at halloc
      simp only at halloc
      obtain ⟨e, he, hor⟩ := CacheBase.allocIdx_spec _ _ _ hidx
      rw [he] at halloc
      simp only at halloc
      have hij : j = i := by
        split at halloc
        · exact congrArg Prod.fst (Option.some.inj halloc)
        · exact congrArg Prod.fst (Option.some.inj halloc)
      subst hij
      refine ⟨e, by rw [← hslru]; exact he, ?_⟩
      rcases hor with hfree | hev
      · exact Or.inl hfree
      · right
        unfold CacheEntryBase.can_evict at hev
        rw [hscomm] at hev
        by_cases hrc : e.refcount > 0
        · rw [if_pos hrc] at hev
          cases hev
        · refine ⟨by omega, ?_⟩
          rw [if_neg hrc] at hev
          by_cases hlg : e.logged
          · rw [hlg] at hev
            simp only [Bool.not_true, Bool.false_eq_true, if_false] at hev
            exact Or.inr (Or.inr hev)
          · exact Or.inr (Or.inl (Bool.not_eq_true _ ▸ hlg))
  refine ⟨?_, ?_, ?_, ?_⟩
  · exact hchar st.committed st rfl rfl
  · exact hchar st.flushTarget (CacheBase.flush_all_logs st) rfl rfl
  · intro e hd hl hle
    unfold CacheEntryBase.can_evict
    rw [hl, hle]
    split
    · rfl
    · simp
  · unfold CacheBase.lookup
    rw [hmiss]
    constructor
    · intro h
      rcases h1 : CacheBase.alloc st with _ | p1
      · rcases h2 : CacheBase.alloc (CacheBase.flush_all_logs st) with _ | p2
        · exact ⟨rfl, rfl⟩
        · rw [h1, h2] at h
          cases h
      · rw [h1] at h
        cases h
    · rintro ⟨h1, h2⟩
      rw [h1, h2]

/-- Witness for the amended C4 at the concrete one-slot cache `C4st` and
block 7 (a miss). -/
theorem C4_victim_selection_witness :
    (∀ i st', CacheBase.alloc C4st = some (i, st') →
      ∃ e, C4st.lru.get? i = some e ∧
        (e.linked = false ∨
         (e.refcount = 0 ∧
          (e.dirty = false ∨ e.logged = false ∨ V6Log.le e.lsn C4st.committed = true)))) ∧
    (∀ i st', CacheBase.alloc (CacheBase.flush_all_logs C4st) = some (i, st') →
      ∃ e, C4st.lru.get? i = some e ∧
        (e.linked = false ∨
         (e.refcount = 0 ∧
          (e.dirty = false ∨ e.logged = false ∨ V6Log.le e.lsn C4st.flushTarget = true)))) ∧
    (∀ e : CEntry, e.dirty = true → e.logged = true →
      V6Log.le e.lsn C4st.committed = false →
      CacheEntryBase.can_evict e C4st.committed = false) ∧
    (CacheBase.lookup C4st 7 = none ↔
      (CacheBase.alloc C4st = none ∧
       CacheBase.alloc (CacheBase.flush_all_logs C4st) = none)) :=
  C4_victim_selection C4st 7 (by decide)

/-! ## ENCMAP (`MCryptFile` from `mcryptfile.cc`) for C3 and C7 -/

/-- Size of one OS page (`page_size` from `vm.hh`). -/
def page_size : Nat := 4096

/-- An all-zero page (the fault handler's zero-initialized `tmp_buf`). -/
def zeroPage : List Nat := List.replicate page_size 0

/-- Association-list lookup, modelling `std::unordered_map::count`/find. -/
def alookup {α : Type} (m : List (Nat × α)) (k : Nat) : Option α :=
  (m.find? (fun p => p.1 == k)).map Prod.snd

/-- Association-list insert-or-assign, modelling `map[k] = v`. -/
def aset {α : Type} (m : List (Nat × α)) (k : Nat) (v : α) : List (Nat × α) :=
  if (m.find? (fun p => p.1 == k)).isSome then
    m.map (fun p => if p.1 == k then (k, v) else p)
  else m ++ [(k, v)]

/-- Association-list erase, modelling `map.erase(k)`. -/
def aerase {α : Type} (m : List (Nat × α)) (k : Nat) : List (Nat × α) :=
  m.filter (fun p => p.1 != k)

/-- The page cipher as used through `CryptFile`: encrypt/decrypt one page
at a byte offset (the offset is the XEX tweak base).  The AES-based
implementation is `PageCrypter`; it is a parameter here so the ENCMAP
layer is stated for any cipher with the round-trip property. -/
structure Crypt where
  encP : Nat → List Nat → List Nat
  decP : Nat → List Nat → List Nat

/-- Mapping protection (`PROT_READ` / `PROT_READ|PROT_WRITE`). -/
inductive Prot where
  | r
  | rw
deriving DecidableEq, Repr

/-- Per-file state of a `CryptFile` (its implementation is the second
document embedded in `vm.cc` of P5, lines 302–343): the file's ciphertext
byte at each offset, the file size in bytes (`CryptFile::file_size`), and
the owning `MCryptFile`'s `map_base_`. -/
structure CFile where
  data : Nat → Nat
  size : Nat
  map_base : Nat

/-- The number of bytes `::pread` returns for a page-sized read at byte
offset `off`: `min(page_size, size - off)`, zero at or past EOF. -/
def CFile.readN (f : CFile) (off : Nat) : Nat :=
  min page_size (f.size - off)

/-- The file's ciphertext bytes in `[off, off + n)`. -/
def CFile.fileBytes (f : CFile) (off n : Nat) : List Nat :=
  (List.range' off n).map f.data

/-- `CryptFile::aligned_pread` of one page at byte offset `off`, as the
fault handler invokes it on the zero-initialized
`char tmp_buf[page_size + 16]{}`: a read at or past EOF leaves the buffer
all zeros; otherwise, with `n0` bytes read and `n = n0 - n0 % 16`, the
code calls `crypt_.decrypt(dst, buf, n + 16, offset)`, so the page is the
decryption of the `n0` file bytes followed by `16 - n0 % 16` bytes of the
read buffer's uninitialized heap memory — modelled by the oracle `junk` —
and zeros beyond, truncated to one page (on a full-page read the trailing
16 junk-derived bytes land past `page_size` and are not copied). -/
def CFile.readPage (c : Crypt) (f : CFile) (junk : Nat → Nat) (off : Nat) :
    List Nat :=
  if CFile.readN f off = 0 then zeroPage
  else
    ((c.decP off
        (CFile.fileBytes f off (CFile.readN f off) ++
          (List.range' (CFile.readN f off)
            (16 - CFile.readN f off % 16)).map junk)) ++ zeroPage).take page_size

/-- `CryptFile::aligned_pwrite` of one page at byte offset `off`: encrypt
the page with tweak base `off` and `::pwrite` the `page_size` ciphertext
bytes, extending the file size. -/
def CFile.writePage (c : Crypt) (f : CFile) (off : Nat) (buf : List Nat) : CFile :=
  { f with
    data := fun i =>
      (if off ≤ i ∧ i < off + page_size then (c.encP off buf).getD (i - off) 0
       else f.data i)
    size := max f.size (off + page_size) }

/-- Global ENCMAP state (`mcryptfile.cc`): in this revision `page_env_`,
`v2p_`, `ppage2file_`, the LRU list and the physical pool are all static,
shared by every open `MCryptFile`.  `mapped` is the `VMRegion` view
(virtual page ↦ physical page and protection), `mem` the contents of each
physical page, `lru` the global LRU with the most recently touched page
at the front, and `freePages` the `PhysMem` free list. -/
structure MSys where
  files : Nat → Option CFile
  page_env : List (Nat × Nat)
  v2p : List (Nat × Nat)
  ppage2file : List (Nat × Nat)
  mapped : List (Nat × (Nat × Prot))
  mem : Nat → List Nat
  lru : List Nat
  freePages : List Nat

/-- Reverse search of `v2p_` for the owner virtual page of a physical
page (the `for (pair : v2p_) if (pair.second == evict)` loop in
`MCryptFile::fault`). -/
def MCryptFile.findVpOf (v2p : List (Nat × Nat)) (pp : Nat) : Option Nat :=
  (v2p.find? (fun p => p.2 == pp)).map Prod.fst

/-- The eviction block inside `MCryptFile::fault`: pop the LRU tail,
find its virtual page and owning file, write it back if dirty, unmap it,
free the physical page, and erase all mapping records.  Absent records
mean the C++ would dereference null/default-inserted entries (`none`). -/
def MCryptFile.evictOne (c : Crypt) (sys : MSys) : Option MSys :=
  match sys.lru.getLast? with
  | none => none
  | some evict =>
    let sys1 : MSys := { sys with lru := sys.lru.dropLast }
    match MCryptFile.findVpOf sys1.v2p evict with
    | none => none
    | some vpe =>
      match alookup sys1.ppage2file evict with
      | none => none
      | some ofid =>
        match sys1.files ofid with
        | none => none
        | some of =>
          let sys2 : MSys :=
            if alookup sys1.page_env vpe = some 1 then
              { sys1 with
                files := fun i =>
                  if i = ofid then
                    some (CFile.writePage c of (vpe - of.map_base) (sys1.mem evict))
                  else sys1.files i }
            else sys1
          some { sys2 with
            mapped := aerase sys2.mapped vpe
            freePages := evict :: sys2.freePages
            ppage2file := aerase sys2.ppage2file evict
            v2p := aerase sys2.v2p vpe
            page_env := aerase sys2.page_env vpe }

/-- `PhysMem::page_alloc`: pop the head of the free list (`null` when
exhausted). -/
def MCryptFile.pageAlloc (sys : MSys) : Option (Nat × MSys) :=
  match sys.freePages with
  | [] => none
  | pp :: rest => some (pp, { sys with freePages := rest })

/-- Tail of the unknown-page branch of `MCryptFile::fault` once a
physical page `pp` has been obtained: `aligned_pread` the page into the
zeroed `tmp_buf` (the oracle `junk` supplies the read buffer's
uninitialized bytes), copy it to `pp`, map it read-only, mark it clean,
record the mappings, and push `pp` onto the LRU head. -/
def MCryptFile.loadPage (c : Crypt) (junk : Nat → Nat) (sys : MSys)
    (fid vp pp : Nat) : Option MSys :=
  match sys.files fid with
  | none => none
  | some f =>
    some { sys with
      mem := fun q =>
        if q = pp then CFile.readPage c f junk (vp - f.map_base) else sys.mem q
      mapped := aset sys.mapped vp (pp, Prot.r)
      page_env := aset sys.page_env vp 0
      v2p := aset sys.v2p vp pp
      ppage2file := aset sys.ppage2file pp fid
      lru := pp :: sys.lru }

/-- The known-page branch of `MCryptFile::fault` (write fault on a
read-only mapping): unmap and remap the same physical page with
read+write protection, mark the page dirty, reassert ownership, and move
the physical page to the LRU head. -/
def MCryptFile.upgradePage (sys : MSys) (fid vp : Nat) : Option MSys :=
  match alookup sys.v2p vp with
  | none => none
  | some pp =>
    some { sys with
      mapped := aset (aerase sys.mapped vp) vp (pp, Prot.rw)
      page_env := aset sys.page_env vp 1
      ppage2file := aset sys.ppage2file pp fid
      lru := pp :: sys.lru.erase pp }

/-- `MCryptFile::fault` (`mcryptfile.cc` lines 96–150): page-align the
faulting address; unknown pages are demand-loaded (allocating a physical
page, evicting the LRU tail if the pool is empty), known pages are
write-upgraded.  `junk` is the uninitialized content of the
`aligned_pread` heap buffer for this fault's read. -/
def MCryptFile.fault (c : Crypt) (junk : Nat → Nat) (sys : MSys)
    (fid va : Nat) : Option MSys :=
  match alookup sys.page_env (va - va % page_size) with
  | none =>
    (match MCryptFile.pageAlloc sys with
     | some (pp, sys1) =>
       MCryptFile.loadPage c junk sys1 fid (va - va % page_size) pp
     | none =>
       match MCryptFile.evictOne c sys with
       | none => none
       | some sys1 =>
         match MCryptFile.pageAlloc sys1 with
         | some (pp, sys2) =>
           MCryptFile.loadPage c junk sys2 fid (va - va % page_size) pp
         | none => none)
  | some _ => MCryptFile.upgradePage sys fid (va - va % page_size)

/-- One iteration of the `MCryptFile::flush` loop: write back the page if
its dirty flag is 1 (through *this* file's `CryptFile`, at offset
`vp - map_base_`). -/
def MCryptFile.flushStep (c : Crypt) (fid : Nat) (sys : MSys) (p : Nat × Nat) :
    Option MSys :=
  if p.2 = 1 then
    match alookup sys.v2p p.1, sys.files fid with
    | some pp, some f =>
      some { sys with
        files := fun i =>
          if i = fid then some (CFile.writePage c f (p.1 - f.map_base) (sys.mem pp))
          else sys.files i }
    | _, _ => none
  else some sys

/-- `MCryptFile::flush` (`mcryptfile.cc` lines 86–92): iterate the global
`page_env_` map and write back every dirty page; the dirty flags are NOT
cleared. -/
def MCryptFile.flush (c : Crypt) (sys : MSys) (fid : Nat) : Option MSys :=
  sys.page_env.foldlM (MCryptFile.flushStep c fid) sys

/-- After a map-style replace of key `k`, looking up `k` yields the new
value. -/
theorem alookup_map_replace {α : Type} (m : List (Nat × α)) (k : Nat) (v : α)
    (h : (m.find? (fun p => p.1 == k)).isSome = true) :
    alookup (m.map (fun p => if p.1 == k then (k, v) else p)) k = some v := by
  induction m with
  | nil => simp at h
  | cons p rest ih =>
    by_cases hk : p.1 = k
    · have hk' : (p.1 == k) = true := by simp [hk]
      simp only [List.map_cons, hk', if_true]
      unfold alookup
      rw [List.find?_cons_of_pos _ (by simp)]
      rfl
    · have hk' : (p.1 == k) = false := by simp [hk]
      have h' : (rest.find? (fun p => p.1 == k)).isSome = true := by
        rw [List.find?_cons_of_neg] at h
        · exact h
        · simp [hk]
      have := ih h'
      simp only [alookup, List.map_cons, hk', if_false] at this ⊢
      rw [List.find?_cons_of_neg]
      · exact this
      · simp [hk]

/-- Appending a fresh binding for an absent key makes it the lookup
result. -/
theorem alookup_append_single {α : Type} (m : List (Nat × α)) (k : Nat) (v : α)
    (h : m.find? (fun p => p.1 == k) = none) :
    alookup (m ++ [(k, v)]) k = some v := by
  induction m with
  | nil => simp [alookup]
  | cons p rest ih =>
    have hk' : (p.1 == k) = false := by
      rcases hfind : (p.1 == k) with _ | _
      · rfl
      · rw [List.find?_cons_of_pos] at h
        · cases h
        · exact hfind
    have h' : rest.find? (fun p => p.1 == k) = none := by
      rw [List.find?_cons_of_neg] at h
      · exact h
      · simp [hk']
    have := ih h'
    simp only [alookup, List.cons_append] at this ⊢
    rw [List.find?_cons_of_neg]
    · exact this
    · simp [hk']

/-- `aset` followed by a lookup of the same key yields the new value. -/
theorem alookup_aset_self {α : Type} (m : List (Nat × α)) (k : Nat) (v : α) :
    alookup (aset m k v) k = some v := by
  unfold aset
  split
  · exact alookup_map_replace m k v (by assumption)
  · refine alookup_append_single m k v ?_
    rename_i h
    exact Option.not_isSome_iff_eq_none.mp (by simpa using h)

/-- A page-sized read wholly at or past end of file leaves the zeroed
buffer untouched: the loaded page is all zeros. -/
theorem CFile.readPage_past_eof (c : Crypt) (f : CFile) (junk : Nat → Nat)
    (off : Nat) (h : f.size ≤ off) :
    CFile.readPage c f junk off = zeroPage := by
  simp [CFile.readPage, CFile.readN, Nat.sub_eq_zero_of_le h]

/-- Postconditions of the demand-load tail of `MCryptFile::fault`. -/
theorem MCryptFile.loadPage_post (c : Crypt) (junk : Nat → Nat) (sys : MSys)
    (fid vp pp : Nat)
    (sys' : MSys) (h : MCryptFile.loadPage c junk sys fid vp pp = some sys') :
    ∃ f', sys'.files fid = some f' ∧
      alookup sys'.mapped vp = some (pp, Prot.r) ∧
      alookup sys'.page_env vp = some 0 ∧
      alookup sys'.v2p vp = some pp ∧
      alookup sys'.ppage2file pp = some fid ∧
      sys'.lru.head? = some pp ∧
      sys'.mem pp = CFile.readPage c f' junk (vp - f'.map_base) := by
  unfold MCryptFile.loadPage at h
  rcases hf : sys.files fid with _ | f
  · rw [hf] at h
    cases h
  · rw [hf] at h
    simp only at h
    cases h
    refine ⟨f, hf, alookup_aset_self _ _ _, alookup_aset_self _ _ _,
      alookup_aset_self _ _ _, alookup_aset_self _ _ _, rfl, ?_⟩
    simp

/-- Amended C3.  A fault on a page unknown to the (global) page table
loads it: the page's contents are the result of `CryptFile::aligned_pread`
into a zeroed buffer — the decryption of the file's data for the in-file
portion, followed on a partial final page by 16 bytes that decrypt the
read buffer's uninitialized memory, and zeros beyond; a page wholly at or
past end of file is zero-filled.  The page is mapped read-only and marked
clean, and its physical page is pushed onto the head of the global LRU
list.  A fault on a known page (a write to a read-only mapping) remaps
the same physical page read+write, marks the page dirty, and moves the
physical page to the LRU head. -/
theorem C3_fault_postconditions (c : Crypt) (junk : Nat → Nat)
    (sys sys' : MSys) (fid va : Nat)
    (hfault : MCryptFile.fault c junk sys fid va = some sys') :
    (alookup sys.page_env (va - va % page_size) = none →
      ∃ pp f', sys'.files fid = some f' ∧
        alookup sys'.mapped (va - va % page_size) = some (pp, Prot.r) ∧
        alookup sys'.page_env (va - va % page_size) = some 0 ∧
        alookup sys'.v2p (va - va % page_size) = some pp ∧
        alookup sys'.ppage2file pp = some fid ∧
        sys'.lru.head? = some pp ∧
        sys'.mem pp = CFile.readPage c f' junk ((va - va % page_size) - f'.map_base) ∧
        (f'.size ≤ (va - va % page_size) - f'.map_base → sys'.mem pp = zeroPage)) ∧
    (∀ d, alookup sys.page_env (va - va % page_size) = some d →
      ∃ pp, alookup sys.v2p (va - va % page_size) = some pp ∧
        alookup sys'.mapped (va - va % page_size) = some (pp, Prot.rw) ∧
        alookup sys'.page_env (va - va % page_size) = some 1 ∧
        alookup sys'.ppage2file pp = some fid ∧
        sys'.lru.head? = some pp) := by
  unfold MCryptFile.fault at hfault
  constructor
  · intro hnone
    rw [hnone] at hfault
    simp only at hfault
    rcases ha1 : MCryptFile.pageAlloc sys with _ | p1
    · rw [ha1] at hfault
      rcases he : MCryptFile.evictOne c sys with _ | sys1
      · rw [he] at hfault
        cases hfault
      · rw [he] at hfault
        simp only at hfault
        rcases ha2 : MCryptFile.pageAlloc sys1 with _ | p2
        · rw [ha2] at hfault
          cases hfault
        · rw [ha2] at hfault
          obtain ⟨f', h1, h2, h3, h4, h5, h6, h7⟩ :=
            MCryptFile.loadPage_post c junk p2.2 fid _ p2.1 sys' hfault
          exact ⟨p2.1, f', h1, h2, h3, h4, h5, h6, h7, fun hsz => by
            rw [h7]; exact CFile.readPage_past_eof c f' junk _ hsz⟩
    · rw [ha1] at hfault
      obtain ⟨f', h1, h2, h3, h4, h5, h6, h7⟩ :=
        MCryptFile.loadPage_post c junk p1.2 fid _ p1.1 sys' hfault
      exact ⟨p1.1, f', h1, h2, h3, h4, h5, h6, h7, fun hsz => by
        rw [h7]; exact CFile.readPage_past_eof c f' junk _ hsz⟩
  · intro d hd
    rw [hd] at hfault
    simp only at hfault
    unfold MCryptFile.upgradePage at hfault
    rcases hv : alookup sys.v2p (va - va % page_size) with _ | pp
    · rw [hv] at hfault
      cases hfault
    · rw [hv] at hfault
      simp only at hfault
      cases hfault
      exact ⟨pp, rfl, alookup_aset_self _ _ _, alookup_aset_self _ _ _,
        alookup_aset_self _ _ _, rfl⟩

/-- The identity page cipher (used to instantiate the abstract cipher in
concrete runs; it trivially satisfies the round-trip property). -/
def idCrypt : Crypt := ⟨fun _ d => d, fun _ d => d⟩

/-- The uninitialized-heap oracle used in the concrete runs: every byte
of the read buffer's junk region reads as 7. -/
def junk7 : Nat → Nat := fun _ => 7

/-- A 16-byte file (one cipher block, a partial final page) whose
ciphertext bytes are 42, mapped at base 0. -/
def C7file : CFile := ⟨fun i => if i < 16 then 42 else 0, 16, 0⟩

/-- A fresh ENCMAP state: file 0 open, nothing mapped, two free physical
pages. -/
def C7sys0 : MSys :=
  { files := fun i => if i = 0 then some C7file else none
    page_env := []
    v2p := []
    ppage2file := []
    mapped := []
    mem := fun _ => []
    lru := []
    freePages := [100, 101] }

/-- The state after a first (read) fault on page 0 of file 0, with junk
oracle `junk7`. -/
def C3sysAfter : MSys :=
  { files := C7sys0.files
    page_env := [(0, 0)]
    v2p := [(0, 100)]
    ppage2file := [(100, 0)]
    mapped := [(0, (100, Prot.r))]
    mem := fun q =>
      if q = 100 then
        CFile.readPage idCrypt C7file junk7 (0 - 0 % page_size - C7file.map_base)
      else C7sys0.mem q
    lru := [100]
    freePages := [101] }

/-- Counterexample to C3's parenthetical "zero-filled past end of file":
faulting in page 0 of the 16-byte file leaves byte 16 of the page — past
end of file — holding the decryption of uninitialized read-buffer memory
(here 7), not zero.  Only bytes past the 16-byte junk window are
zero-filled. -/
theorem C3_counterexample :
    MCryptFile.fault idCrypt junk7 C7sys0 0 0 = some C3sysAfter ∧
    ¬ (∀ j, C7file.size ≤ j → j < page_size →
        (C3sysAfter.mem 100).getD j 0 = 0) := by
  refine ⟨rfl, fun h => ?_⟩
  have h16 := h 16 (by decide) (by decide)
  exact absurd h16 (by decide)

/-- Witness for the amended C3 theorem: the first fault on file 0 at
address 0 demand-loads the page, maps it read-only, marks it clean, and
pushes physical page 100 onto the LRU head. -/
theorem C3_fault_postconditions_witness :
    (alookup C7sys0.page_env (0 - 0 % page_size) = none →
      ∃ pp f', C3sysAfter.files 0 = some f' ∧
        alookup C3sysAfter.mapped (0 - 0 % page_size) = some (pp, Prot.r) ∧
        alookup C3sysAfter.page_env (0 - 0 % page_size) = some 0 ∧
        alookup C3sysAfter.v2p (0 - 0 % page_size) = some pp ∧
        alookup C3sysAfter.ppage2file pp = some 0 ∧
        C3sysAfter.lru.head? = some pp ∧
        C3sysAfter.mem pp =
          CFile.readPage idCrypt f' junk7 (0 - 0 % page_size - f'.map_base) ∧
        (f'.size ≤ 0 - 0 % page_size - f'.map_base →
          C3sysAfter.mem pp = zeroPage)) ∧
    (∀ d, alookup C7sys0.page_env (0 - 0 % page_size) = some d →
      ∃ pp, alookup C7sys0.v2p (0 - 0 % page_size) = some pp ∧
        alookup C3sysAfter.mapped (0 - 0 % page_size) = some (pp, Prot.rw) ∧
        alookup C3sysAfter.page_env (0 - 0 % page_size) = some 1 ∧
        alookup C3sysAfter.ppage2file pp = some 0 ∧
        C3sysAfter.lru.head? = some pp) :=
  C3_fault_postconditions idCrypt junk7 C7sys0 C3sysAfter 0 0 rfl

/-- A store by user code through a writable mapping: overwrite one
physical page's contents (this is the memory write that the write-fault
upgrade enables; it happens outside the ENCMAP code). -/
def MSys.store (sys : MSys) (pp : Nat) (data : List Nat) : MSys :=
  { sys with mem := fun q => if q = pp then data else sys.mem q }

/-- The claimed invariant: every virtual page whose `page_env_` dirty
flag is 1 has physical-page contents that differ from the decryption of
the on-disk ciphertext at that page's offset in its owning file. -/
def dirtyPagesDiffer (c : Crypt) (sys : MSys) : Prop :=
  ∀ vp d, alookup sys.page_env vp = some d → d = 1 →
    ∀ pp fid f, alookup sys.v2p vp = some pp →
      alookup sys.ppage2file pp = some fid →
      sys.files fid = some f →
      sys.mem pp ≠ c.decP (vp - f.map_base)
        (CFile.fileBytes f (vp - f.map_base) page_size)

/-- Read fault on page 0, write fault on page 0, user store through the
now-writable mapping, then `flush()`. -/
def C7chain : Option MSys :=
  (((MCryptFile.fault idCrypt junk7 C7sys0 0 0).bind
      (fun s => MCryptFile.fault idCrypt junk7 s 0 0)).map
      (fun s => MSys.store s 100 (List.replicate page_size 7))).bind
    (fun s => MCryptFile.flush idCrypt s 0)

/-- File 0 after the flush wrote the (identity-encrypted) new page
contents back to disk. -/
def C7fileAfter : CFile :=
  { data := fun i =>
      (if 0 ≤ i ∧ i < page_size then
        (idCrypt.encP 0 (List.replicate page_size 7)).getD i 0
      else C7file.data i)
    size := page_size
    map_base := 0 }

/-- The global state at the end of `C7chain`. -/
def C7final : MSys :=
  { files := fun i => if i = 0 then some C7fileAfter else C7sys0.files i
    page_env := [(0, 1)]
    v2p := [(0, 100)]
    ppage2file := [(100, 0)]
    mapped := [(0, (100, Prot.rw))]
    mem := fun q =>
      if q = 100 then List.replicate page_size 7
      else
        if q = 100 then
          CFile.readPage idCrypt C7file junk7 (0 - 0 % page_size - C7file.map_base)
        else C7sys0.mem q
    lru := [100]
    freePages := [101] }

/-- Reading a list's elements back through `getD` along its index range
reproduces the list. -/
theorem range'_map_getD (l : List Nat) :
    ∀ off : Nat, (List.range' off l.length).map (fun i => l.getD (i - off) 0) = l := by
  induction l with
  | nil => intro off; rfl
  | cons a t ih =>
    intro off
    rw [List.length_cons, List.range'_succ, List.map_cons]
    congr 1
    · simp
    · have hih := ih (off + 1)
      refine Eq.trans ?_ hih
      refine List.map_congr_left ?_
      intro i hi
      have hge : off + 1 ≤ i := (List.mem_range'_1.mp hi).1
      have hsub : i - off = (i - (off + 1)) + 1 := by omega
      rw [hsub]
      rfl

/-- Counterexample to C7: `flush()` writes the dirty page back but does
not clear its dirty flag, so immediately after `flush()` returns, page 0
still has dirty flag 1 while its physical contents equal the decryption
of the on-disk ciphertext. -/
theorem C7_counterexample :
    C7chain = some C7final ∧ ¬ dirtyPagesDiffer idCrypt C7final := by
  refine ⟨rfl, fun h => ?_⟩
  have h1 : CFile.fileBytes C7fileAfter 0 page_size =
      (List.range' 0 page_size).map
        (fun i => (List.replicate page_size 7).getD (i - 0) 0) := by
    unfold CFile.fileBytes
    refine List.map_congr_left ?_
    intro i hi
    rcases List.mem_range'_1.mp hi with ⟨_, hlt⟩
    show C7fileAfter.data i = _
    unfold C7fileAfter
    simp only
    rw [if_pos ⟨Nat.zero_le i, by simpa using hlt⟩]
    simp [idCrypt]
  have h2 : (List.range' 0 page_size).map
      (fun i => (List.replicate page_size 7).getD (i - 0) 0) =
      List.replicate page_size 7 := by
    have h3 := range'_map_getD (List.replicate page_size 7) 0
    rwa [List.length_replicate] at h3
  have heq : C7final.mem 100 =
      idCrypt.decP 0 (CFile.fileBytes C7fileAfter 0 page_size) := by
    show List.replicate page_size 7 = _
    rw [h1, h2]
    rfl
  exact h 0 1 rfl rfl 100 0 C7fileAfter rfl rfl rfl heq

/-- Invariant of the `MCryptFile::flush` write-back loop over a suffix of
`page_env_`: the loop changes only the file table; the file keeps its
`map_base_`; file bytes not covered by any dirty entry's page range are
untouched; and each dirty entry's page-sized byte range ends holding the
encryption of its current memory contents (provided no other dirty
entry's range overlaps it). -/
theorem flushFold_spec (c : Crypt) (fid : Nat) (l : List (Nat × Nat)) :
    ∀ (s s' : MSys) (f : CFile), s.files fid = some f →
      List.foldlM (MCryptFile.flushStep c fid) s l = some s' →
      s'.page_env = s.page_env ∧ s'.v2p = s.v2p ∧ s'.mem = s.mem ∧
      ∃ f', s'.files fid = some f' ∧ f'.map_base = f.map_base ∧
        (∀ i, (∀ q ∈ l, q.2 = 1 →
            ¬(q.1 - f.map_base ≤ i ∧ i < q.1 - f.map_base + page_size)) →
          f'.data i = f.data i) ∧
        (∀ vp pp, (vp, 1) ∈ l → alookup s.v2p vp = some pp →
          (∀ q ∈ l, q.2 = 1 → q.1 ≠ vp → ∀ j, j < page_size →
            ¬(q.1 - f.map_base ≤ vp - f.map_base + j ∧
              vp - f.map_base + j < q.1 - f.map_base + page_size)) →
          ∀ j, j < page_size →
            f'.data (vp - f.map_base + j) =
              (c.encP (vp - f.map_base) (s.mem pp)).getD j 0) := by
  induction l with
  | nil =>
    intro s s' f hf hfold
    simp only [List.foldlM, Option.pure_def, Option.some.injEq] at hfold
    subst hfold
    refine ⟨rfl, rfl, rfl, f, hf, rfl, fun i _ => rfl, ?_⟩
    intro vp pp hmem
    exact absurd hmem (List.not_mem_nil _)
  | cons p rest ih =>
    intro s s' f hf hfold
    simp only [List.foldlM] at hfold
    cases hstep : MCryptFile.flushStep c fid s p with
    | none => rw [hstep] at hfold; simp at hfold
    | some s1 =>
      rw [hstep] at hfold
      replace hfold : List.foldlM (MCryptFile.flushStep c fid) s1 rest = some s' := hfold
      by_cases hp2 : p.2 = 1
      · rw [MCryptFile.flushStep, if_pos hp2] at hstep
        cases hpp : alookup s.v2p p.1 with
        | none => rw [hpp] at hstep; simp at hstep
        | some pp0 =>
          rw [hpp, hf] at hstep
          simp only [Option.some.injEq] at hstep
          subst hstep
          have hf1 : ({ s with files := fun i =>
              (if i = fid then
                some (CFile.writePage c f (p.1 - f.map_base) (s.mem pp0))
              else s.files i) } : MSys).files fid =
              some (CFile.writePage c f (p.1 - f.map_base) (s.mem pp0)) := by
            simp
          obtain ⟨hpe, hv2p, hmem, f', hf', hmb, hunt, hdirty⟩ :=
            ih _ s' _ hf1 hfold
          refine ⟨hpe, hv2p, hmem, f', hf', hmb, ?_, ?_⟩
          · intro i hi
            have hnotp : ¬(p.1 - f.map_base ≤ i ∧ i < p.1 - f.map_base + page_size) :=
              hi p (List.mem_cons_self p rest) hp2
            have h1 : f'.data i =
                (CFile.writePage c f (p.1 - f.map_base) (s.mem pp0)).data i :=
              hunt i (fun q hq hq2 => hi q (List.mem_cons_of_mem p hq) hq2)
            rw [h1]
            exact if_neg hnotp
          · intro vp pp hmemv hvp hcross
            by_cases hin : (vp, 1) ∈ rest
            · exact hdirty vp pp hin hvp
                (fun q hq hq2 hne => hcross q (List.mem_cons_of_mem p hq) hq2 hne)
            · have hphd : p = (vp, 1) := by
                rcases List.mem_cons.mp hmemv with h | h
                · exact h.symm
                · exact absurd h hin
              subst hphd
              have hpp' : pp0 = pp := by
                rw [hpp] at hvp
                exact Option.some.inj hvp
              subst hpp'
              intro j hj
              have h1 : f'.data (vp - f.map_base + j) =
                  (CFile.writePage c f (vp - f.map_base) (s.mem pp0)).data
                    (vp - f.map_base + j) := by
                refine hunt _ ?_
                intro q hq hq2
                by_cases hqv : q.1 = vp
                · exfalso
                  apply hin
                  have hq1 : q = (vp, 1) := by
                    cases q with
                    | mk a b =>
                      simp only at hqv hq2
                      rw [hqv, hq2]
                  rw [← hq1]
                  exact hq
                · exact hcross q (List.mem_cons_of_mem _ hq) hq2 hqv j hj
              rw [h1]
              have h2 : (CFile.writePage c f (vp - f.map_base) (s.mem pp0)).data
                  (vp - f.map_base + j) =
                  (c.encP (vp - f.map_base) (s.mem pp0)).getD
                    (vp - f.map_base + j - (vp - f.map_base)) 0 :=
                if_pos ⟨Nat.le_add_right _ _, Nat.add_lt_add_left hj _⟩
              rw [h2]
              have h3 : vp - f.map_base + j - (vp - f.map_base) = j := by omega
              rw [h3]
      · rw [MCryptFile.flushStep, if_neg hp2] at hstep
        simp only [Option.some.injEq] at hstep
        subst hstep
        obtain ⟨hpe, hv2p, hmem, f', hf', hmb, hunt, hdirty⟩ :=
          ih _ s' _ hf hfold
        refine ⟨hpe, hv2p, hmem, f', hf', hmb, ?_, ?_⟩
        · intro i hi
          exact hunt i (fun q hq hq2 => hi q (List.mem_cons_of_mem p hq) hq2)
        · intro vp pp hmemv hvp hcross
          have hin : (vp, 1) ∈ rest := by
            rcases List.mem_cons.mp hmemv with h | h
            · exact absurd (by rw [← h]) hp2
            · exact h
          exact hdirty vp pp hin hvp
            (fun q hq hq2 hne => hcross q (List.mem_cons_of_mem p hq) hq2 hne)

/-- Amended C7: after `flush()` the dirty flags are unchanged (not
cleared), and every dirty page's on-disk ciphertext decrypts to that
page's current physical memory contents — so immediately after `flush()`
returns a dirty-flagged page agrees with the disk instead of differing
from it, refuting the claimed invariant at the very point the claim
asserts it.  Hypotheses: the cipher round-trips and preserves length,
dirty pages hold full pages, and distinct dirty pages cover disjoint
byte ranges of the file. -/
theorem C7_flush_writeback_no_clear (c : Crypt) (sys sys' : MSys) (fid : Nat) (f : CFile)
    (hrt : ∀ off d, c.decP off (c.encP off d) = d)
    (hlen : ∀ off d, (c.encP off d).length = d.length)
    (hmemlen : ∀ vp pp, (vp, 1) ∈ sys.page_env → alookup sys.v2p vp = some pp →
      (sys.mem pp).length = page_size)
    (hf : sys.files fid = some f)
    (hinj : ∀ p q, p ∈ sys.page_env → q ∈ sys.page_env → p.2 = 1 → q.2 = 1 →
      p.1 ≠ q.1 → ∀ j, j < page_size →
        ¬(q.1 - f.map_base ≤ p.1 - f.map_base + j ∧
          p.1 - f.map_base + j < q.1 - f.map_base + page_size))
    (hflush : MCryptFile.flush c sys fid = some sys') :
    sys'.page_env = sys.page_env ∧
    ∃ f', sys'.files fid = some f' ∧
      ∀ vp pp, (vp, 1) ∈ sys.page_env → alookup sys.v2p vp = some pp →
        c.decP (vp - f.map_base)
            (CFile.fileBytes f' (vp - f.map_base) page_size) = sys.mem pp := by
  obtain ⟨hpe, hv2p, hmm, f', hf', hmb, hunt, hdirty⟩ :=
    flushFold_spec c fid sys.page_env sys sys' f hf hflush
  refine ⟨hpe, f', hf', ?_⟩
  intro vp pp hvp hpp
  have hbyte := hdirty vp pp hvp hpp
    (fun q hq hq2 hne => hinj (vp, 1) q hvp hq rfl hq2 (Ne.symm hne))
  have hlenE : (c.encP (vp - f.map_base) (sys.mem pp)).length = page_size := by
    rw [hlen]
    exact hmemlen vp pp hvp hpp
  have hfb : CFile.fileBytes f' (vp - f.map_base) page_size =
      c.encP (vp - f.map_base) (sys.mem pp) := by
    unfold CFile.fileBytes
    have hmap : (List.range' (vp - f.map_base) page_size).map f'.data =
        (List.range' (vp - f.map_base) page_size).map
          (fun i => (c.encP (vp - f.map_base) (sys.mem pp)).getD
            (i - (vp - f.map_base)) 0) := by
      refine List.map_congr_left ?_
      intro i hi
      rcases List.mem_range'_1.mp hi with ⟨hlo, hhi⟩
      have hj : i - (vp - f.map_base) < page_size := by omega
      have hi' : i = vp - f.map_base + (i - (vp - f.map_base)) := by omega
      rw [hi', Nat.add_sub_cancel_left]
      exact hbyte (i - (vp - f.map_base)) hj
    rw [hmap, ← hlenE]
    exact range'_map_getD (c.encP (vp - f.map_base) (sys.mem pp)) (vp - f.map_base)
  rw [hfb, hrt]

/-- The ENCMAP state right before a flush: page 0 of file 0 is mapped
read-write and dirty at physical page 100, whose contents were
overwritten by the user. -/
def C7sys2 : MSys :=
  { files := C7sys0.files
    page_env := [(0, 1)]
    v2p := [(0, 100)]
    ppage2file := [(100, 0)]
    mapped := [(0, (100, Prot.rw))]
    mem := fun q => if q = 100 then List.replicate page_size 7 else C7sys0.mem q
    lru := [100]
    freePages := [101] }

/-- `C7sys2` after `flush()`: only the file table changed. -/
def C7sys2Flushed : MSys :=
  { C7sys2 with files := fun i => if i = 0 then some C7fileAfter else C7sys2.files i }

/-- Witness for the amended C7 theorem: flushing `C7sys2` leaves the
dirty flag on page 0 set while the disk ciphertext of page 0 now
decrypts to the in-memory contents. -/
theorem C7_flush_writeback_no_clear_witness :
    C7sys2Flushed.page_env = C7sys2.page_env ∧
    ∃ f', C7sys2Flushed.files 0 = some f' ∧
      ∀ vp pp, (vp, 1) ∈ C7sys2.page_env → alookup C7sys2.v2p vp = some pp →
        idCrypt.decP (vp - C7file.map_base)
            (CFile.fileBytes f' (vp - C7file.map_base) page_size) =
          C7sys2.mem pp :=
  C7_flush_writeback_no_clear idCrypt C7sys2 C7sys2Flushed 0 C7file
    (fun _ _ => rfl) (fun _ _ => rfl)
    (by
      intro vp pp hvp hpp
      simp only [C7sys2, List.mem_singleton, Prod.mk.injEq] at hvp
      obtain ⟨rfl, _⟩ := hvp
      have hpp' : (100 : Nat) = pp := by simpa [C7sys2, alookup] using hpp
      subst hpp'
      simp [C7sys2])
    rfl
    (by
      intro p q hp hq h1 h2 hne
      simp only [C7sys2, List.mem_singleton] at hp hq
      subst hp; subst hq
      exact absurd rfl hne)
    rfl

/-! ## Journal replay (`V6Replay` from `replay.cc`) -/

/-- The reader's view of the on-disk log during replay: `entries pos`
decodes the log entry that starts at byte offset `pos`, yielding the
entry's stored sequence number (header and footer agree), its record, and
the offset just past the entry; `none` stands for any `log_corrupt`
outcome of `LogEntry::load` (premature EOF, invalid variant index,
header/footer sequence mismatch, bad checksum).  `logstart` is
`hdr_.logstart() * SECTOR_SIZE`. -/
structure RLog where
  entries : Nat → Option (Nat × Rec × Nat)
  logstart : Nat

/-- `V6Replay::read_next`: `load()` an entry and check its stored sequence
number against `sequence_`, incrementing the latter on success; if the
entry is a `LogRewind`, seek to `logstart` and `load()` once more.  The
result is the loaded entry (its LSN, record, next offset) or `none` for a
`log_corrupt` throw, paired with the final value of `sequence_` (the
increment of a successful first load persists when the second one
throws). -/
def V6Replay.readNext (lg : RLog) (pos seq : Nat) :
    Option (Nat × Rec × Nat) × Nat :=
  match lg.entries pos with
  | none => (none, seq)
  | some (s, e, next) =>
    if s = seq then
      match e with
      | Rec.LogRewind =>
        (match lg.entries lg.logstart with
         | none => (none, (seq + 1) % lsnMod)
         | some (s2, e2, next2) =>
           if s2 = (seq + 1) % lsnMod then
             (some ((seq + 1) % lsnMod, e2, next2),
              ((seq + 1) % lsnMod + 1) % lsnMod)
           else (none, (seq + 1) % lsnMod))
      | _ => (some (seq, e, next), (seq + 1) % lsnMod)
    else (none, seq)

/-- The filesystem state that replay mutates: the byte contents of every
block (`fs_.bread` / `bdwrite`) and the in-memory freemap being
rebuilt. -/
structure FS where
  blocks : Nat → Nat → Nat
  freemap : Nat → Bool

/-- The `V6Replay::apply` overloads: `LogPatch` copies `bytes` into the
block at `offset_in_block`; `LogBlockAlloc` zeroes the block when
`zero_on_replay` is set and clears the freemap bit; `LogBlockFree` sets
the freemap bit; `LogBegin`, `LogCommit` and `LogRewind` change
nothing. -/
def V6Replay.applyRec (fs : FS) : Rec → FS
  | Rec.LogPatch bn off bytes =>
    { fs with blocks := fun b j =>
        (if b = bn ∧ off ≤ j ∧ j < off + bytes.length then bytes.getD (j - off) 0
         else fs.blocks b j) }
  | Rec.LogBlockAlloc bn z =>
    { blocks := fun b j => (if b = bn ∧ z = true then 0 else fs.blocks b j)
      freemap := fun b => (if b = bn then false else fs.freemap b) }
  | Rec.LogBlockFree bn =>
    { fs with freemap := fun b => (if b = bn then true else fs.freemap b) }
  | _ => fs

/-- The `for (;;)` loop of `V6Replay::check_tx`, fuelled: keep reading
until a `LogCommit` appears; a commit whose payload sequence equals
`beginseq` restores `sequence_` to `startseq` and answers true, while any
`log_corrupt` (including a commit with the wrong sequence) answers false
and keeps the partially advanced `sequence_`.  `none` is fuel
exhaustion. -/
def V6Replay.checkTxLoop (lg : RLog) (startseq beginseq : Nat) :
    Nat → Nat → Nat → Option (Bool × Nat)
  | 0, _, _ => none
  | fuel + 1, pos, seq =>
    match V6Replay.readNext lg pos seq with
    | (none, seqf) => some (false, seqf)
    | (some (_, e, pos1), seq1) =>
      match e with
      | Rec.LogCommit s =>
        if s = beginseq then some (true, startseq) else some (false, seq1)
      | _ => V6Replay.checkTxLoop lg startseq beginseq fuel pos1 seq1

/-- `V6Replay::check_tx`: from offset `pos` with `sequence_ = seq`, read
the first entry (which must be a `LogBegin`; its LSN becomes `beginseq`)
and scan forward for the matching commit.  The reader position is always
restored by the `cleanup` guard, so only the verdict and the final
`sequence_` are returned. -/
def V6Replay.checkTx (lg : RLog) (fuel pos seq : Nat) : Option (Bool × Nat) :=
  match V6Replay.readNext lg pos seq with
  | (none, seqf) => some (false, seqf)
  | (some (eseq, e, pos1), seq1) =>
    match e with
    | Rec.LogBegin => V6Replay.checkTxLoop lg seq eseq fuel pos1 seq1
    | _ => some (false, seq1)

/-- The fuelled continuation of the `do { read_next; apply } while
(!LogCommit)` loop in `V6Replay::replay`: read an entry, apply it, stop
after any `LogCommit`.  `none` (fuel exhaustion, or a `log_corrupt` that
`replay` would not catch) never arises on a transaction that `check_tx`
approved. -/
def V6Replay.applyTxLoop (lg : RLog) :
    Nat → Nat → Nat → FS → Option (Nat × Nat × FS)
  | 0, _, _, _ => none
  | fuel + 1, pos, seq, fs =>
    match V6Replay.readNext lg pos seq with
    | (none, _) => none
    | (some (_, e, pos1), seq1) =>
      match e with
      | Rec.LogCommit s =>
        some (pos1, seq1, V6Replay.applyRec fs (Rec.LogCommit s))
      | _ => V6Replay.applyTxLoop lg fuel pos1 seq1 (V6Replay.applyRec fs e)

/-- One transaction's worth of the apply loop of `V6Replay::replay`, with
the first `do`-iteration unrolled the same way `check_tx` reads its first
entry before entering its loop. -/
def V6Replay.applyTx (lg : RLog) (fuel pos seq : Nat) (fs : FS) :
    Option (Nat × Nat × FS) :=
  match V6Replay.readNext lg pos seq with
  | (none, _) => none
  | (some (_, e, pos1), seq1) =>
    match e with
    | Rec.LogCommit s =>
      some (pos1, seq1, V6Replay.applyRec fs (Rec.LogCommit s))
    | _ => V6Replay.applyTxLoop lg fuel pos1 seq1 (V6Replay.applyRec fs e)

/-- The main loop of `V6Replay::replay`: while `check_tx` approves the
transaction at the cursor, re-read and apply it; once it does not, stop
with the cursor still at the failed transaction's start (this becomes the
new checkpoint) and the filesystem state produced by the committed
transactions alone. -/
def V6Replay.replayLoop (lg : RLog) :
    Nat → Nat → Nat → Nat → FS → Option (Nat × Nat × FS)
  | 0, _, _, _, _ => none
  | fuel + 1, txfuel, pos, seq, fs =>
    match V6Replay.checkTx lg txfuel pos seq with
    | none => none
    | some (false, seqf) => some (pos, seqf, fs)
    | some (true, seqt) =>
      match V6Replay.applyTx lg txfuel pos seqt fs with
      | none => none
      | some (pos1, seq1, fs1) => V6Replay.replayLoop lg fuel txfuel pos1 seq1 fs1

/-- Following the spec's words (claim C1): after a `LogBegin`, scan one
prospective transaction once, collecting its records in log order.  A
commit whose payload sequence equals the begin LSN completes the
transaction (inner `some`); end-of-log/corruption or a mismatched commit
discards it (inner `none`, with the scanner's final sequence number);
outer `none` is fuel exhaustion. -/
def SpecReplay.scanAux (lg : RLog) (beginseq : Nat) :
    Nat → Nat → Nat → List Rec → Option (Option (List Rec × Nat × Nat) × Nat)
  | 0, _, _, _ => none
  | fuel + 1, pos, seq, acc =>
    match V6Replay.readNext lg pos seq with
    | (none, seqf) => some (none, seqf)
    | (some (_, e, pos1), seq1) =>
      match e with
      | Rec.LogCommit s =>
        if s = beginseq then
          some (some (acc ++ [Rec.LogCommit s], pos1, seq1), seq1)
        else some (none, seq1)
      | _ => SpecReplay.scanAux lg beginseq fuel pos1 seq1 (acc ++ [e])

/-- Following the spec's words: a committed transaction at `pos` is a
`LogBegin` followed by records up to a `LogCommit` whose sequence equals
the begin record's LSN; anything else — including corruption at the very
first read — yields no transaction. -/
def SpecReplay.scan (lg : RLog) (fuel pos seq : Nat) :
    Option (Option (List Rec × Nat × Nat) × Nat) :=
  match V6Replay.readNext lg pos seq with
  | (none, seqf) => some (none, seqf)
  | (some (eseq, e, pos1), seq1) =>
    match e with
    | Rec.LogBegin => SpecReplay.scanAux lg eseq fuel pos1 seq1 [Rec.LogBegin]
    | _ => some (none, seq1)

/-- Following the spec's words: replay applies, in log order, the effects
of exactly the committed transactions — each read once and applied by a
single fold — and terminates normally at the first non-committed
transaction or corruption, keeping the state produced by the committed
prefix. -/
def SpecReplay.replay (lg : RLog) :
    Nat → Nat → Nat → Nat → FS → Option (Nat × Nat × FS)
  | 0, _, _, _, _ => none
  | fuel + 1, txfuel, pos, seq, fs =>
    match SpecReplay.scan lg txfuel pos seq with
    | none => none
    | some (none, seqf) => some (pos, seqf, fs)
    | some (some (recs, pos1, seq1), _) =>
      SpecReplay.replay lg fuel txfuel pos1 seq1
        (recs.foldl V6Replay.applyRec fs)

/-- Reading a non-commit record advances the pre-scan, the single-pass
scan, and the apply loop in lockstep. -/
theorem replay_step_not_commit (lg : RLog) (beginseq startseq f pos seq : Nat)
    (es : Nat) (e : Rec) (p1 sq : Nat) (acc : List Rec)
    (hr : V6Replay.readNext lg pos seq = (some (es, e, p1), sq))
    (he : ∀ s, e ≠ Rec.LogCommit s) :
    SpecReplay.scanAux lg beginseq (f + 1) pos seq acc =
      SpecReplay.scanAux lg beginseq f p1 sq (acc ++ [e]) ∧
    V6Replay.checkTxLoop lg startseq beginseq (f + 1) pos seq =
      V6Replay.checkTxLoop lg startseq beginseq f p1 sq ∧
    ∀ fs, V6Replay.applyTxLoop lg (f + 1) pos seq fs =
      V6Replay.applyTxLoop lg f p1 sq (V6Replay.applyRec fs e) := by
  cases e
  case LogCommit s => exact absurd rfl (he s)
  all_goals
    refine ⟨?_, ?_, fun fs => ?_⟩ <;>
      simp [SpecReplay.scanAux, V6Replay.checkTxLoop, V6Replay.applyTxLoop, hr]

/-- Trichotomy relating `check_tx`'s scanning loop, the spec's single-pass
scan, and the apply loop: they run out of fuel together, reject together
(with the same final sequence number), or accept together — in which case
the apply loop produces exactly the fold of the scanned records. -/
theorem checkTxLoop_scanAux (lg : RLog) (startseq beginseq : Nat) :
    ∀ (ft pos seq : Nat) (acc : List Rec),
      (SpecReplay.scanAux lg beginseq ft pos seq acc = none ∧
        V6Replay.checkTxLoop lg startseq beginseq ft pos seq = none) ∨
      (∃ sf, SpecReplay.scanAux lg beginseq ft pos seq acc = some (none, sf) ∧
        V6Replay.checkTxLoop lg startseq beginseq ft pos seq = some (false, sf)) ∨
      (∃ tail p1 s1,
        SpecReplay.scanAux lg beginseq ft pos seq acc =
          some (some (acc ++ tail, p1, s1), s1) ∧
        V6Replay.checkTxLoop lg startseq beginseq ft pos seq =
          some (true, startseq) ∧
        ∀ fs, V6Replay.applyTxLoop lg ft pos seq fs =
          some (p1, s1, tail.foldl V6Replay.applyRec fs)) := by
  intro ft
  induction ft with
  | zero => intro pos seq acc; exact Or.inl ⟨rfl, rfl⟩
  | succ f ih =>
    intro pos seq acc
    rcases hr : V6Replay.readNext lg pos seq with ⟨o, sq⟩
    rcases o with _ | ⟨es, e, p1⟩
    · exact Or.inr (Or.inl ⟨sq, by simp [SpecReplay.scanAux, hr],
        by simp [V6Replay.checkTxLoop, hr]⟩)
    · by_cases hc : ∃ s, e = Rec.LogCommit s
      · obtain ⟨s, rfl⟩ := hc
        by_cases hs : s = beginseq
        · exact Or.inr (Or.inr ⟨[Rec.LogCommit s], p1, sq,
            by simp [SpecReplay.scanAux, hr, hs],
            by simp [V6Replay.checkTxLoop, hr, hs],
            fun fs => by simp [V6Replay.applyTxLoop, hr]⟩)
        · exact Or.inr (Or.inl ⟨sq,
            by simp [SpecReplay.scanAux, hr, hs],
            by simp [V6Replay.checkTxLoop, hr, hs]⟩)
      · have he : ∀ s, e ≠ Rec.LogCommit s := fun s h => hc ⟨s, h⟩
        obtain ⟨h1, h2, h3⟩ :=
          replay_step_not_commit lg beginseq startseq f pos seq es e p1 sq acc hr he
        rcases ih p1 sq (acc ++ [e]) with
          ⟨ha, hb⟩ | ⟨sf, ha, hb⟩ | ⟨tail, pp, ss, ha, hb, happ⟩
        · exact Or.inl ⟨h1.trans ha, h2.trans hb⟩
        · exact Or.inr (Or.inl ⟨sf, h1.trans ha, h2.trans hb⟩)
        · refine Or.inr (Or.inr ⟨e :: tail, pp, ss, ?_, h2.trans hb, fun fs => ?_⟩)
          · rw [h1, ha]; simp
          · rw [h3 fs, happ (V6Replay.applyRec fs e)]; simp

/-- Trichotomy for a whole prospective transaction: `check_tx` and the
spec's one-pass scan run out of fuel together or agree on the verdict and
the final `sequence_`; on acceptance `check_tx` restores `sequence_` to
its starting value and the apply loop, re-reading from the restored
position, produces exactly the fold of the scanned records. -/
theorem checkTx_scan (lg : RLog) (ft pos seq : Nat) :
    (SpecReplay.scan lg ft pos seq = none ∧
      V6Replay.checkTx lg ft pos seq = none) ∨
    (∃ sf, SpecReplay.scan lg ft pos seq = some (none, sf) ∧
      V6Replay.checkTx lg ft pos seq = some (false, sf)) ∨
    (∃ recs p1 s1,
      SpecReplay.scan lg ft pos seq = some (some (recs, p1, s1), s1) ∧
      V6Replay.checkTx lg ft pos seq = some (true, seq) ∧
      ∀ fs, V6Replay.applyTx lg ft pos seq fs =
        some (p1, s1, recs.foldl V6Replay.applyRec fs)) := by
  rcases hr : V6Replay.readNext lg pos seq with ⟨o, sq⟩
  rcases o with _ | ⟨es, e, p1⟩
  · exact Or.inr (Or.inl ⟨sq, by simp [SpecReplay.scan, hr],
      by simp [V6Replay.checkTx, hr]⟩)
  · cases e
    case LogBegin =>
      rcases checkTxLoop_scanAux lg seq es ft p1 sq [Rec.LogBegin] with
        ⟨ha, hb⟩ | ⟨sf, ha, hb⟩ | ⟨tail, pp, ss, ha, hb, happ⟩
      · exact Or.inl ⟨by simp [SpecReplay.scan, hr, ha],
          by simp [V6Replay.checkTx, hr, hb]⟩
      · exact Or.inr (Or.inl ⟨sf, by simp [SpecReplay.scan, hr, ha],
          by simp [V6Replay.checkTx, hr, hb]⟩)
      · refine Or.inr (Or.inr ⟨Rec.LogBegin :: tail, pp, ss, ?_, ?_, fun fs => ?_⟩)
        · simp only [SpecReplay.scan, hr]
          rw [ha]
          simp
        · simp only [V6Replay.checkTx, hr]
          exact hb
        · simp only [V6Replay.applyTx, hr]
          rw [happ (V6Replay.applyRec fs Rec.LogBegin)]
          simp [V6Replay.applyRec]
    all_goals
      exact Or.inr (Or.inl ⟨sq, by simp [SpecReplay.scan, hr],
        by simp [V6Replay.checkTx, hr]⟩)

/-- C1: the replay loop of `V6Replay::replay` — pre-scan each prospective
transaction with `check_tx` (restoring the cursor, resetting `sequence_`
only on success), then re-read and apply it — computes exactly the
single-pass semantics: the effects of precisely those transactions that
start with a `LogBegin` and reach a `LogCommit` whose sequence equals the
begin LSN are applied, in log order; a transaction with no matching
commit contributes nothing; and on any `log_corrupt` condition (or a
missing begin/commit) replay terminates normally with the state produced
by the previously applied committed transactions. -/
theorem C1_replay_applies_committed_transactions (lg : RLog) :
    ∀ (fuel txfuel pos seq : Nat) (fs : FS),
      V6Replay.replayLoop lg fuel txfuel pos seq fs =
        SpecReplay.replay lg fuel txfuel pos seq fs := by
  intro fuel
  induction fuel with
  | zero => intro txfuel pos seq fs; rfl
  | succ f ih =>
    intro txfuel pos seq fs
    rcases checkTx_scan lg txfuel pos seq with
      ⟨ha, hb⟩ | ⟨sf, ha, hb⟩ | ⟨recs, p1, s1, ha, hb, happ⟩
    · simp [V6Replay.replayLoop, SpecReplay.replay, ha, hb]
    · simp [V6Replay.replayLoop, SpecReplay.replay, ha, hb]
    · simp only [V6Replay.replayLoop, SpecReplay.replay, ha, hb, happ fs]
      exact ih txfuel p1 s1 (recs.foldl V6Replay.applyRec fs)

/-! ## fsck (`fsck.cc` with `layout.hh` constants) -/

/-- `layout.hh`: `IALLOC = 0100000`. -/
def IALLOC : Nat := 32768

/-- `layout.hh`: `IFMT = 060000`. -/
def IFMT : Nat := 24576

/-- `layout.hh`: `IFDIR = 040000`. -/
def IFDIR : Nat := 16384

/-- `layout.hh`: `IFCHR = 020000`. -/
def IFCHR : Nat := 8192

/-- `layout.hh`: `IFBLK = 060000`. -/
def IFBLK : Nat := 24576

/-- `layout.hh`: `INODES_PER_BLOCK = SECTOR_SIZE / sizeof(inode) = 16`. -/
def INODES_PER_BLOCK : Nat := 16

/-- `layout.hh`: inodes start at sector 2. -/
def INODE_START_SECTOR : Nat := 2

/-- `layout.hh`: the root directory is inumber 1. -/
def ROOT_INUMBER : Nat := 1

/-- One on-disk inode as fsck touches it: `i_mode`, `i_nlink`, the file
size, and the eight direct `i_addr` block pointers (images using the
`ILARG` indirect scheme are outside this model). -/
structure InodeR where
  mode : Nat
  nlink : Nat
  size : Nat
  addrs : List Nat
deriving DecidableEq, Repr

/-- The all-zero inode (`const inode zero{}` in `Fsck::fix_nlink`). -/
def zeroInode : InodeR := ⟨0, 0, 0, [0, 0, 0, 0, 0, 0, 0, 0]⟩

/-- A structured view of the filesystem image as fsck reads and patches
it: superblock geometry (`s_isize`, `s_fsize`), the free-inode cache
(`s_inode[0..s_ninode)`), the inode table, each directory's dirent stream
as `Cursor` yields it (entry inumber and name bytes), and the old-style
free list contents (`fs_freemap` reads these when the superblock has no
log). -/
structure Img where
  isize : Nat
  fsize : Nat
  inodeCache : List Nat
  inodes : Nat → InodeR
  dirents : Nat → List (Nat × List Nat)
  freelist : List Nat

/-- `filsys::datastart() = INODE_START_SECTOR + s_isize`. -/
def Img.datastart (img : Img) : Nat := INODE_START_SECTOR + img.isize

/-- `nlinks_.size() = ROOT_INUMBER + s_isize * INODES_PER_BLOCK`. -/
def Img.nlinksSize (img : Img) : Nat :=
  ROOT_INUMBER + img.isize * INODES_PER_BLOCK

/-- `V6FS::badblock`. -/
def Img.fsckbadblock (img : Img) (bn : Nat) : Bool :=
  decide (bn < img.datastart) || decide (img.fsize ≤ bn)

/-- `Fsck::valid_inum`. -/
def Img.valid_inum (img : Img) (inum : Nat) : Bool :=
  decide (ROOT_INUMBER ≤ inum) && decide (inum < img.nlinksSize)

/-- A pending repair in `Fsck::patches_` / `newlinks_`, keyed
structurally rather than by raw disk offset: zero a direct block pointer
(`patch16(ba.pointer_offset(i), 0)`), set a directory entry's inumber
(`patch(&p->d_inumber, v)`), clear a whole inode
(`patch<inode>(ip.get(), zero)`), or set an inode's link count
(`patch(&ip->i_nlink, n)`). -/
inductive FPatch where
  | zeroBlockPtr (ino idx : Nat)
  | setDirentInum (ino idx inum : Nat)
  | clearInode (ino : Nat)
  | setNlink (ino n : Nat)
deriving DecidableEq, Repr

/-- The fsck working state: the freemap being recomputed, the observed
link counts (`std::vector<uint8_t> nlinks_`, hence mod 256), and the two
pending-repair queues. -/
structure FsckSt where
  freemap : Bitmap
  nlinks : Nat → Nat
  patches : List FPatch
  newlinks : List (Nat × Nat × List Nat)

/-- The `Fsck` constructor: freemap filled with ones over the data range
(then `tidy()`), link counts zero, nothing pending. -/
def Fsck.initSt (img : Img) : FsckSt :=
  { freemap := ⟨fun b => decide (img.datastart ≤ b ∧ b < img.fsize),
      img.datastart, img.fsize⟩
    nlinks := fun _ => 0
    patches := []
    newlinks := [] }

/-- `Fsck::scan_blocks` for one inode, restricted to the direct
(non-`ILARG`) layout: character/block specials are skipped; every nonzero
direct pointer is checked for a bad block number, allocation beyond end
of file (`512 * i ≥ size`, the height-1 sentinel-path test), and
cross-allocation; a good block is claimed in the freemap and a bad
pointer is patched to zero with the scan reporting failure. -/
def Fsck.scanBlocksInode (img : Img) (stIn : FsckSt) (ino : Nat) :
    Bool × FsckSt :=
  if (img.inodes ino).mode &&& IFMT = IFCHR ∨
      (img.inodes ino).mode &&& IFMT = IFBLK then
    (true, stIn)
  else
    (List.range 8).foldl
      (fun acc i =>
        if (img.inodes ino).addrs.getD i 0 = 0 then acc
        else if img.fsckbadblock ((img.inodes ino).addrs.getD i 0) then
          (false, { acc.2 with
            patches := acc.2.patches ++ [FPatch.zeroBlockPtr ino i] })
        else if 512 * i ≥ (img.inodes ino).size then
          (false, { acc.2 with
            patches := acc.2.patches ++ [FPatch.zeroBlockPtr ino i] })
        else if acc.2.freemap.bits ((img.inodes ino).addrs.getD i 0) = false then
          (false, { acc.2 with
            patches := acc.2.patches ++ [FPatch.zeroBlockPtr ino i] })
        else
          (acc.1, { acc.2 with
            freemap := acc.2.freemap.setBit ((img.inodes ino).addrs.getD i 0) false }))
      (true, stIn)

/-- `Fsck::scan_inodes`: scan the blocks of every inode in the table. -/
def Fsck.scanInodes (img : Img) (st : FsckSt) : Bool × FsckSt :=
  (List.range' ROOT_INUMBER (img.nlinksSize - ROOT_INUMBER)).foldl
    (fun acc ino =>
      match Fsck.scanBlocksInode img acc.2 ino with
      | (ok, st1) => (acc.1 && ok, st1))
    (true, st)

/-- The entry loop of `Fsck::scan_directory` over one directory's dirent
stream (`rec1` is the recursive scan of a subdirectory, with this
directory as parent): zero-inumber entries are skipped; invalid inumbers
and duplicate names are patched out; `.` and `..` are checked against the
directory and its parent (patched on mismatch) and counted; other entries
count a link, entries naming unallocated inodes or making a second hard
link to a directory are patched out (uncounting the link), and
subdirectories are scanned recursively. -/
def Fsck.dirLoop (img : Img) (ino : Nat)
    (rec1 : Nat → FsckSt → Bool × FsckSt) (parent : Nat) :
    List (Nat × List Nat) → Nat → List (List Nat) → Bool → Bool → Bool →
    FsckSt → Bool × Bool × Bool × FsckSt
  | [], _, _, res, dok, ddok, st => (res, dok, ddok, st)
  | (inum, name) :: rest, idx, names, res, dok, ddok, st =>
    if inum = 0 then
      Fsck.dirLoop img ino rec1 parent rest (idx + 1) names res dok ddok st
    else if img.valid_inum inum = false then
      Fsck.dirLoop img ino rec1 parent rest (idx + 1) names false dok ddok
        { st with patches := st.patches ++ [FPatch.setDirentInum ino idx 0] }
    else if name ∈ names then
      Fsck.dirLoop img ino rec1 parent rest (idx + 1) names false dok ddok
        { st with patches := st.patches ++ [FPatch.setDirentInum ino idx 0] }
    else if name = [46] then
      Fsck.dirLoop img ino rec1 parent rest (idx + 1) (name :: names)
        (res && decide (inum = ino)) true ddok
        { st with
          patches := (if inum = ino then st.patches
            else st.patches ++ [FPatch.setDirentInum ino idx ino])
          nlinks := fun j =>
            (if j = ino then (st.nlinks ino + 1) % 256 else st.nlinks j) }
    else if name = [46, 46] then
      Fsck.dirLoop img ino rec1 parent rest (idx + 1) (name :: names)
        (res && decide (inum = parent)) dok true
        { st with
          patches := (if inum = parent then st.patches
            else st.patches ++ [FPatch.setDirentInum ino idx parent])
          nlinks := fun j =>
            (if j = parent then (st.nlinks parent + 1) % 256 else st.nlinks j) }
    else
      let st1 : FsckSt := { st with nlinks := fun j =>
        (if j = inum then (st.nlinks inum + 1) % 256 else st.nlinks j) }
      if (img.inodes inum).mode &&& IALLOC = 0 then
        Fsck.dirLoop img ino rec1 parent rest (idx + 1) (name :: names)
          false dok ddok
          { st1 with
            nlinks := fun j =>
              (if j = inum then (st1.nlinks inum + 255) % 256 else st1.nlinks j)
            patches := st1.patches ++ [FPatch.setDirentInum ino idx 0] }
      else if (img.inodes inum).mode &&& IFMT = IFDIR then
        if st1.nlinks inum ≠ 1 then
          Fsck.dirLoop img ino rec1 parent rest (idx + 1) (name :: names)
            false dok ddok
            { st1 with
              nlinks := fun j =>
                (if j = inum then (st1.nlinks inum + 255) % 256 else st1.nlinks j)
              patches := st1.patches ++ [FPatch.setDirentInum ino idx 0] }
        else
          match rec1 inum st1 with
          | (rsub, st2) =>
            Fsck.dirLoop img ino rec1 parent rest (idx + 1) (name :: names)
              (res && rsub) dok ddok st2
      else
        Fsck.dirLoop img ino rec1 parent rest (idx + 1) (name :: names)
          res dok ddok st1

/-- `Fsck::scan_directory`, fuelled on recursion depth: a zero parent
defaults to the directory itself; after the entry loop a missing `.` or
`..` queues a `newlink` and counts the link; the verdict also requires
both dots to have been present. -/
def Fsck.scanDirFuel (img : Img) : Nat → Nat → Nat → FsckSt → Bool × FsckSt
  | 0, _, _, st => (false, st)
  | fuel + 1, ino, parent0, st =>
    let parent := if parent0 = 0 then ino else parent0
    match Fsck.dirLoop img ino
        (fun sub st2 => Fsck.scanDirFuel img fuel sub ino st2) parent
        (img.dirents ino) 0 [] true false false st with
    | (res, dok, ddok, st1) =>
      let st2 := if dok then st1 else
        { st1 with
          newlinks := st1.newlinks ++ [(ino, ino, ([46] : List Nat))]
          nlinks := fun j =>
            (if j = ino then (st1.nlinks ino + 1) % 256 else st1.nlinks j) }
      let st3 := if ddok then st2 else
        { st2 with
          newlinks := st2.newlinks ++ [(ino, parent, ([46, 46] : List Nat))]
          nlinks := fun j =>
            (if j = parent then (st2.nlinks parent + 1) % 256 else st2.nlinks j) }
      (res && dok && ddok, st3)

/-- `Fsck::fix_nlink`: an allocated inode that no directory references is
cleared; an inode whose `i_nlink` disagrees with the observed link count
is patched to the observed count; either case makes the pass report that
fixes were required. -/
def Fsck.fixNlink (img : Img) (st : FsckSt) : Bool × FsckSt :=
  (List.range' ROOT_INUMBER (img.nlinksSize - ROOT_INUMBER)).foldl
    (fun acc i =>
      if st.nlinks i = 0 then
        (if (img.inodes i).mode &&& IALLOC ≠ 0 then
          (false, { acc.2 with patches := acc.2.patches ++ [FPatch.clearInode i] })
        else acc)
      else if st.nlinks i ≠ (img.inodes i).nlink then
        (false, { acc.2 with
          patches := acc.2.patches ++ [FPatch.setNlink i (st.nlinks i)] })
      else acc)
    (true, st)

/-- The `s_ninode` validation in `fsck()`: the cached free-inode list
must fit `s_inode[100]` and name only valid, unreferenced inodes. -/
def Fsck.checkNinode (img : Img) (st : FsckSt) : Bool :=
  if img.inodeCache.length > 100 then false
  else img.inodeCache.all (fun inp =>
    decide (ROOT_INUMBER ≤ inp) && decide (inp < img.nlinksSize) &&
      decide (st.nlinks inp = 0))

/-- Application of one pending repair to the image. -/
def Img.applyPatch (img : Img) : FPatch → Img
  | FPatch.setDirentInum ino idx v =>
    { img with dirents := fun d =>
        (if d = ino then
          (img.dirents ino).set idx (v, ((img.dirents ino).getD idx (0, [])).2)
        else img.dirents d) }
  | FPatch.clearInode ino =>
    { img with inodes := fun i => (if i = ino then zeroInode else img.inodes i) }
  | FPatch.setNlink ino n =>
    { img with inodes := fun i =>
        (if i = ino then { img.inodes ino with nlink := n } else img.inodes i) }
  | FPatch.zeroBlockPtr ino idx =>
    { img with inodes := fun i =>
        (if i = ino then { img.inodes ino with addrs := (img.inodes ino).addrs.set idx 0 }
         else img.inodes i) }

/-- `Fsck::apply`: write out the pending patches, rebuild the old-style
free list from the recomputed freemap (`rebuild_freelist`, walking the
data range backwards), create the queued `newlinks` directory entries,
and clear both queues. -/
def Fsck.applyPatches (img : Img) (st : FsckSt) : Img × FsckSt :=
  let img1 := st.patches.foldl Img.applyPatch img
  let img2 := { img1 with freelist :=
    ((List.range' img1.datastart (img1.fsize - img1.datastart)).filter
      (fun b => st.freemap.bits b)).reverse }
  let img3 := st.newlinks.foldl
    (fun im nl =>
      { im with dirents := fun d =>
          (if d = nl.1 then im.dirents d ++ [(nl.2.1, nl.2.2)] else im.dirents d) })
    img2
  (img3, { st with patches := [], newlinks := [] })

/-- Comparison `fsck.freemap_ == fs_freemap(fs)` over the data range,
with `fs_freemap` reading the old-style free list (no log). -/
def Img.fsFreemapEq (img : Img) (bm : Bitmap) : Bool :=
  (List.range' img.datastart (img.fsize - img.datastart)).all
    (fun b => bm.bits b == img.freelist.contains b)

/-- `fsck(fs, write = true)` as run by `fsck -y` (`main` passes
`opt_yes`): scan inodes (applying fixes if any), compare the recomputed
freemap with the on-disk free list, scan directories from the root
(applying fixes if any), fix link counts, validate `s_ninode`, apply all
remaining fixes and reset `s_ninode`; the exit status is 1 if any pass
required fixes ("File system was corrupt"), else 0.  Besides the status
and the final image, the total queues of repairs requested during the run
are returned. -/
def fsckRun (img0 : Img) :
    Nat × Img × List FPatch × List (Nat × Nat × List Nat) :=
  let p1 := Fsck.scanInodes img0 (Fsck.initSt img0)
  let r1 := p1.1
  let q1 := if r1 then (img0, p1.2) else Fsck.applyPatches img0 p1.2
  let acc1 := if r1 then ([] : List FPatch) else p1.2.patches
  let accN1 := if r1 then ([] : List (Nat × Nat × List Nat)) else p1.2.newlinks
  let img1 := q1.1
  let st1 := q1.2
  let okfree := Img.fsFreemapEq img1 st1.freemap
  let p2 := Fsck.scanDirFuel img1 (img1.nlinksSize + 1) ROOT_INUMBER ROOT_INUMBER st1
  let r2 := p2.1
  let q2 := if r2 then (img1, p2.2) else Fsck.applyPatches img1 p2.2
  let acc2 := if r2 then ([] : List FPatch) else p2.2.patches
  let accN2 := if r2 then ([] : List (Nat × Nat × List Nat)) else p2.2.newlinks
  let img2 := q2.1
  let st2 := q2.2
  let p3 := Fsck.fixNlink img2 st2
  let r3 := p3.1
  let st3 := p3.2
  let r4 := Fsck.checkNinode img2 st3
  let q4 := Fsck.applyPatches img2 st3
  let img3 := { q4.1 with inodeCache := [] }
  let res := r1 && okfree && r2 && r3 && r4
  ((if res then 0 else 1), img3, acc1 ++ acc2 ++ st3.patches,
    accN1 ++ accN2 ++ st3.newlinks)

/-- The C9 image: `s_isize = 1` (inodes 1–16), `s_fsize = 4`; the root
directory (inode 1, link count 2) occupies data block 3 and holds the
entries `.`, `..` and `f`; inode 2 is an allocated empty regular file
with `i_nlink = 5` referenced only by `f`; the free list is empty (block
3 is the only data block and it is in use). -/
def C9img : Img :=
  { isize := 1
    fsize := 4
    inodeCache := []
    inodes := fun i =>
      if i = 1 then ⟨IALLOC + IFDIR, 2, 48, [3, 0, 0, 0, 0, 0, 0, 0]⟩
      else if i = 2 then ⟨IALLOC, 5, 0, [0, 0, 0, 0, 0, 0, 0, 0]⟩
      else zeroInode
    dirents := fun d =>
      if d = 1 then [(1, [46]), (1, [46, 46]), (2, [102])] else []
    freelist := [] }

/-- Counterexample to C9: on the image where allocated inode 2 has
`i_nlink = 5` but a single directory entry, the first `fsck -y` run does
patch the link count to 1 — but exits with status 1, not 0, because
`fsck()` returns 1 ("File system was corrupt") whenever any pass required
fixes. -/
theorem C9_counterexample :
    (fsckRun C9img).1 = 1 ∧ ((fsckRun C9img).2.1.inodes 2).nlink = 1 := by
  exact ⟨by decide, by decide⟩

/-- Amended C9: the first `fsck -y` run requests exactly the repair
setting inode 2's link count to 1, leaves the repaired image with
`i_nlink = 1`, and exits with status 1; a second run on the repaired
image exits with status 0 and requests no repairs at all. -/
theorem C9_fsck_nlink_repair :
    (fsckRun C9img).1 = 1 ∧
    (fsckRun C9img).2.2.1 = [FPatch.setNlink 2 1] ∧
    (fsckRun C9img).2.2.2 = [] ∧
    ((fsckRun C9img).2.1.inodes 2).nlink = 1 ∧
    (fsckRun (fsckRun C9img).2.1).1 = 0 ∧
    (fsckRun (fsckRun C9img).2.1).2.2.1 = [] ∧
    (fsckRun (fsckRun C9img).2.1).2.2.2 = [] := by
  refine ⟨by decide, by decide, by decide, by decide, by decide, by decide, by decide⟩
